import Mathlib

/-!
# Yandex Disk adapter: directory materialization cache and paginated listing

A shallow embedding of `yandex/yandex.go` (and of the part of the Go standard
library it calls) together with the properties of the directory cache
(`MkDirCached`, `MkDirFullPathCached`), of the write path (`Object.Update`,
`Fs.Put`, `Fs.Mkdir`), of the object constructor (`Fs.NewFsObject`) and of the
listing walker (`Fs.list`).

Conventions of the embedding.

* A Go `string` is a list of characters.  The only separator the program looks
  for is the ASCII character `/`, on which byte-wise and character-wise
  prefix, suffix and split operations agree.
* Remote calls are recorded, oldest first, in a log; the remote client is a
  function of the log of earlier calls and of the arguments of the call, so a
  client may answer the same path differently at different times.
* `log.Fatalf` ends the process: a function that reaches it returns
  `Except.error` with the state at that moment, and nothing runs afterwards.
* `uint32` arithmetic is arithmetic modulo `2 ^ 32`.
-/

namespace Yandex

/-- A Go string. -/
abbrev Str := List Char

/-! ## The Go standard library functions used by the adapter -/

/-- Go `strings.HasPrefix(s, p)`. -/
def HasPrefix (s p : Str) : Bool := p.isPrefixOf s

/-- Go `strings.HasSuffix(s, p)`. -/
def HasSuffix (s p : Str) : Bool := p.isSuffixOf s

/-- Go `strings.TrimPrefix(s, p)`: `s` without the leading `p`, or `s` itself
when `s` does not start with `p`. -/
def TrimPrefix (s p : Str) : Str :=
  if HasPrefix s p then s.drop p.length else s

/-- Go `strings.TrimSuffix(s, p)`: `s` without the trailing `p`, or `s` itself
when `s` does not end with `p`. -/
def TrimSuffix (s p : Str) : Str :=
  if HasSuffix s p then s.take (s.length - p.length) else s

/-- Go `strings.Trim(s, cutset)` for a cutset of one character: all leading and
all trailing occurrences of `c` are removed. -/
def Trim (s : Str) (c : Char) : Str :=
  ((s.dropWhile (fun x => x == c)).reverse.dropWhile (fun x => x == c)).reverse

/-- Go `strings.Split(s, sep)` for a separator of one character: the pieces of
`s` between the occurrences of `sep`, empty pieces included. -/
def Split : Str → Char → List Str
  | [], _ => [[]]
  | c :: cs, sep =>
    if c = sep then [] :: Split cs sep
    else
      match Split cs sep with
      | [] => [[c]]
      | piece :: pieces => (c :: piece) :: pieces

/-- Go `filepath.Base(path)` on a system whose separator is `/` and that has
no volume names: the last element of the path, after removing trailing
separators; `.` for the empty path and `/` for a path of separators only. -/
def Base (path : Str) : Str :=
  if path = [] then ['.']
  else
    let stripped := (path.reverse.dropWhile (fun x => x == '/')).reverse
    let last := (stripped.reverse.takeWhile (fun x => x != '/')).reverse
    if last = [] then ['/'] else last

/-! ## Data model -/

/-- Cache state `mkdirCreate`. -/
def mkdirCreate : Int := 1

/-- Cache state `mkdirExist`. -/
def mkdirExist : Int := 2

/-- The Go `map[string]int` holding the directory cache, as an association
list in which the first binding of a key is the current one. -/
abbrev MkdirCache := List (Str × Int)

/-- Reading `m[k]`: the value bound to `k`, and the zero value when `k` has
no binding. -/
def MkdirCache.get (m : MkdirCache) (k : Str) : Int :=
  match m.lookup k with
  | some v => v
  | none => 0

/-- The assignment `m[k] = v`. -/
def MkdirCache.set (m : MkdirCache) (k : Str) (v : Int) : MkdirCache :=
  (k, v) :: m

/-- A call made to the remote service. -/
inductive Call where
  | mkdir (path : Str)
  | upload (data : List Nat) (path : Str) (overwrite : Bool)
  deriving DecidableEq, Repr

/-- The pair `(error, int)` returned by the client's `Mkdir`: `err = none` is
Go's `nil` error. -/
structure MkdirResult where
  err : Option Str
  statusCode : Int
  deriving DecidableEq, Repr

/-- Modelled from the spec: the type `yandex.ResourceInfoResponse` of the
package `yandex_disk_api` is declared outside the files at hand; a remote
entry carries its full remote path, byte size, content checksum and
last-modified timestamp in wire format. -/
structure ResourceInfoResponse where
  Path : Str
  Size : Nat
  Md5 : Str
  Modified : Str
  deriving DecidableEq, Repr

/-- The options of a flat file list request: `Limit` and `Offset`, both
`uint32`. -/
structure ListRequest where
  limit : Nat
  offset : Nat
  deriving DecidableEq, Repr

/-- The remote client `yandex.Client`, seen through the calls the adapter
makes.  Each operation receives the log of the earlier calls. -/
structure Client where
  /-- The answer of `client.Mkdir(path)`. -/
  Mkdir : List Call → Str → MkdirResult
  /-- The error returned by `client.Upload(in, path, overwrite)`. -/
  Upload : List Call → List Nat → Str → Bool → Option Str
  /-- The answer of `client.NewFlatFileListRequest(opt).Exec()`, given the
  earlier list requests. -/
  FlatFileList : List ListRequest → ListRequest → Except Str (List ResourceInfoResponse)

/-- The adapter `Fs`. -/
structure Fs where
  name : Str
  yd : Client
  root : Str
  disk_root : Str
  mkdircache : MkdirCache

/-- The object handle `Object`; `modTime` is a number of nanoseconds, zero
for the zero time. -/
structure Object where
  fs : Fs
  remote : Str
  md5sum : Str
  bytes : Nat
  modTime : Int
  item : ResourceInfoResponse

/-- The directory cache together with the log of the remote calls made so
far, oldest first. -/
structure Run where
  mkdircache : MkdirCache
  calls : List Call
  deriving DecidableEq, Repr

/-! ## The directory materialization cache -/

/-- `MkDirCached(client, path, mkdircache)`: one create-directory call.  A 409
answer and a 201 answer both record `mkdirExist`; an error with another
status reaches `log.Fatalf`. -/
def MkDirCached (client : Client) (path : Str) (s : Run) : Except Run Run :=
  let r := client.Mkdir s.calls path
  let s1 : Run := { s with calls := s.calls ++ [Call.mkdir path] }
  if r.err ≠ none then
    if r.statusCode = 409 then
      Except.ok { s1 with mkdircache := s1.mkdircache.set path mkdirExist }
    else
      Except.error s1
  else
    if r.statusCode = 201 then
      Except.ok { s1 with mkdircache := s1.mkdircache.set path mkdirExist }
    else
      Except.ok s1

/-- The loop of `MkDirFullPathCached` over the elements of `dirs`, with the
current value of the local `mkdirpath`. -/
def mkdirLoop (client : Client) : List Str → Str → Run → Except Run Run
  | [], _, s => Except.ok s
  | element :: rest, mkdirpath, s =>
    if element ≠ [] then
      let mkdirpath := mkdirpath ++ element ++ ['/']
      if s.mkdircache.get mkdirpath ≠ mkdirExist then
        match MkDirCached client mkdirpath s with
        | Except.error halted => Except.error halted
        | Except.ok s1 => mkdirLoop client rest mkdirpath s1
      else
        mkdirLoop client rest mkdirpath s
    else
      mkdirLoop client rest mkdirpath s

/-- The root marker `disk:/`. -/
def diskMarker : Str := ['d', 'i', 's', 'k', ':', '/']

/-- The value of `dirs` in `MkDirFullPathCached`: the path without its base
name and without the root marker, split on `/`. -/
def pathDirs (path : Str) : List Str :=
  let dirString := TrimSuffix path (Base path)
  let dirString := TrimPrefix dirString diskMarker
  Split dirString '/'

/-- `MkDirFullPathCached(client, path, mkdircache)`. -/
def MkDirFullPathCached (client : Client) (path : Str) (s : Run) : Except Run Run :=
  mkdirLoop client (pathDirs path) ['/'] s

/-- The state in which a computation ended, whether it returned or was
halted. -/
def finalRun : Except Run Run → Run
  | Except.ok s => s
  | Except.error s => s

/-- The paths of the create-directory calls of a log, in order. -/
def mkdirPaths : List Call → List Str
  | [] => []
  | Call.mkdir p :: rest => p :: mkdirPaths rest
  | Call.upload _ _ _ :: rest => mkdirPaths rest

/-! ## Derived notions used to state the properties -/

/-- The successive values that the local `mkdirpath` takes in the loop of
`MkDirFullPathCached` at the non-empty elements of `dirs`: the directory
paths the loop looks up in the cache. -/
def dirChain : List Str → Str → List Str
  | [], _ => []
  | element :: rest, mkdirpath =>
    if element ≠ [] then
      (mkdirpath ++ element ++ ['/']) :: dirChain rest (mkdirpath ++ element ++ ['/'])
    else
      dirChain rest mkdirpath

/-- The ancestor directories of a full path, root first, as
`MkDirFullPathCached` computes them. -/
def ancestorDirs (path : Str) : List Str := dirChain (pathDirs path) ['/']

/-- The answer "created": no error and status 201. -/
def isCreated (r : MkdirResult) : Prop := r.err = none ∧ r.statusCode = 201

/-- The answer "conflict": an error with status 409. -/
def isConflict (r : MkdirResult) : Prop := r.err ≠ none ∧ r.statusCode = 409

/-- A failure: an error whose status is not 409. -/
def isFailure (r : MkdirResult) : Prop := r.err ≠ none ∧ r.statusCode ≠ 409

instance (r : MkdirResult) : Decidable (isCreated r) := by unfold isCreated; infer_instance
instance (r : MkdirResult) : Decidable (isConflict r) := by unfold isConflict; infer_instance
instance (r : MkdirResult) : Decidable (isFailure r) := by unfold isFailure; infer_instance

/-- A client that answers every create-directory call with 201 or with 409. -/
def AnswersCreatedOrConflict (client : Client) : Prop :=
  ∀ (log : List Call) (path : Str),
    isCreated (client.Mkdir log path) ∨ isConflict (client.Mkdir log path)

/-- A client that answers every create-directory call with 409. -/
def AnswersConflict (client : Client) : Prop :=
  ∀ (log : List Call) (path : Str), isConflict (client.Mkdir log path)

/-- A client that answers every create-directory call with 201. -/
def AnswersCreated (client : Client) : Prop :=
  ∀ (log : List Call) (path : Str), isCreated (client.Mkdir log path)

/-- A sequence of `MkDirFullPathCached` calls that thread one cache. -/
def runPaths (client : Client) : List Str → Run → Except Run Run
  | [], s => Except.ok s
  | path :: rest, s =>
    match MkDirFullPathCached client path s with
    | Except.error halted => Except.error halted
    | Except.ok s1 => runPaths client rest s1

/-- Every path of a logged create-directory call is bound to `mkdirExist`, and
no path was passed to the client twice. -/
def CacheCoversCalls (s : Run) : Prop :=
  (mkdirPaths s.calls).Nodup ∧ ∀ p ∈ mkdirPaths s.calls, s.mkdircache.get p = mkdirExist

/-! ## Clients used as examples -/

/-- A client that answers 201 to every create-directory call, no error to
every upload and an empty page to every list request. -/
def createdClient : Client :=
  { Mkdir := fun _ _ => { err := none, statusCode := 201 },
    Upload := fun _ _ _ _ => none,
    FlatFileList := fun _ _ => Except.ok [] }

/-- A client that answers every create-directory call with an error of status
409. -/
def conflictClient : Client :=
  { createdClient with
    Mkdir := fun _ _ => { err := some ['4', '0', '9'], statusCode := 409 } }

/-- A client that answers the create-directory call for `/a/b/` with an error
of status 500 and every other one with 201. -/
def failingClient : Client :=
  { createdClient with
    Mkdir := fun _ path =>
      if path = ['/', 'a', '/', 'b', '/'] then { err := some ['5', '0', '0'], statusCode := 500 }
      else { err := none, statusCode := 201 } }

/-! ## The adapter facade -/

/-- `f.setRoot(root)`: the root without leading and trailing slashes, and the
disk root `disk:/` or `disk:/<root>/`. -/
def Fs.setRoot (f : Fs) (root : Str) : Fs :=
  let r := Trim root '/'
  let disk_root := if r = [] then diskMarker else diskMarker ++ r ++ ['/']
  { f with root := r, disk_root := disk_root }

/-- `NewFs(name, root)`.  Reading and decoding the stored token and building
the REST client from it happen outside the adapter: `token` is the error of
`getAccessToken` or the client built from the token.  The field `name` is
left at its zero value, as in the source. -/
def NewFs (token : Except Str Client) (root : Str) : Except Str Fs :=
  match token with
  | Except.error err => Except.error err
  | Except.ok yandexDisk =>
    let f : Fs := { name := [], yd := yandexDisk, root := [], disk_root := [], mkdircache := [] }
    let f := f.setRoot root
    Except.ok { f with mkdircache := [] }

/-- `o.remotePath()`. -/
def Object.remotePath (o : Object) : Str := o.fs.disk_root ++ o.remote

/-- `o.Remote()`. -/
def Object.Remote (o : Object) : Str := o.remote

/-- `o.Fs()`. -/
def Object.Fs (o : Object) : Fs := o.fs

/-- `o.Update(in, modTime, size)`, started with the log `calls`: the object
(with the cache of its adapter), the log and the error of the upload; or the
state in which `log.Fatalf` halted the process. -/
def Object.Update (o : Object) (data : List Nat) (_modTime : Int) (_size : Int)
    (calls : List Call) : Except Run (Object × List Call × Option Str) :=
  let remote := o.remotePath
  match MkDirFullPathCached o.fs.yd remote { mkdircache := o.fs.mkdircache, calls := calls } with
  | Except.error halted => Except.error halted
  | Except.ok s1 =>
    let overwrite := true
    Except.ok ({ o with fs := { o.fs with mkdircache := s1.mkdircache } },
      s1.calls ++ [Call.upload data remote overwrite],
      o.fs.yd.Upload s1.calls data remote overwrite)

/-- The zero value of `ResourceInfoResponse`. -/
def ResourceInfoResponse.zero : ResourceInfoResponse :=
  { Path := [], Size := 0, Md5 := [], Modified := [] }

/-- `f.Put(in, remote, modTime, size)`, started with the log `calls`. -/
def Fs.Put (f : Fs) (data : List Nat) (remote : Str) (modTime : Int) (size : Int)
    (calls : List Call) : Except Run (Object × List Call × Option Str) :=
  let o : Object :=
    { fs := f, remote := remote, md5sum := [], bytes := (size % 2 ^ 64).toNat, modTime := 0,
      item := ResourceInfoResponse.zero }
  o.Update data modTime size calls

/-- `f.Mkdir()`, started with the log `calls`: the adapter, the log and the
returned error, which is always `nil`. -/
def Fs.Mkdir (f : Fs) (calls : List Call) : Except Run (Fs × List Call × Option Str) :=
  match MkDirFullPathCached f.yd f.root { mkdircache := f.mkdircache, calls := calls } with
  | Except.error halted => Except.error halted
  | Except.ok s1 => Except.ok ({ f with mkdircache := s1.mkdircache }, s1.calls, none)

/-- A run-time panic of the Go program. -/
inductive Panic where
  | nilDereference
  deriving DecidableEq, Repr

/-- The pointer dereference `*p`; `none` is the `nil` pointer. -/
def deref {α : Type} (p : Option α) : Except Panic α :=
  match p with
  | none => Except.error Panic.nilDereference
  | some a => Except.ok a

/-- `o.setMetaData(info)`; `parseTime` is `time.Parse(time.RFC3339Nano, ·)`,
`none` when the timestamp is malformed. -/
def Object.setMetaData (parseTime : Str → Option Int) (o : Object)
    (info : ResourceInfoResponse) : Object :=
  let o := { o with bytes := info.Size }
  let o := { o with md5sum := info.Md5 }
  match parseTime info.Modified with
  | none => o
  | some t => { o with modTime := t }

/-- `f.newFsObjectWithInfo(remote, info)`: the composite literal evaluates
`*info` before the test `info != nil`. -/
def Fs.newFsObjectWithInfo (parseTime : Str → Option Int) (f : Fs) (remote : Str)
    (info : Option ResourceInfoResponse) : Except Panic Object :=
  match deref info with
  | Except.error p => Except.error p
  | Except.ok item =>
    let o : Object :=
      { fs := f, remote := remote, md5sum := [], bytes := 0, modTime := 0, item := item }
    match info with
    | some i => Except.ok (o.setMetaData parseTime i)
    | none => Except.ok o

/-- `f.NewFsObject(remote)`. -/
def Fs.NewFsObject (parseTime : Str → Option Int) (f : Fs) (remote : Str) : Except Panic Object :=
  f.newFsObjectWithInfo parseTime remote none

/-! ## The paginated listing walker -/

/-- What a run of `Fs.list` did: the page requests it made, the pages it
received, the `(name, item)` pairs it handed to its callback, the errors it
logged, and whether it has returned. -/
structure ListRun where
  requests : List ListRequest
  pages : List (List ResourceInfoResponse)
  yields : List (Str × ResourceInfoResponse)
  errors : List Str
  returned : Bool
  deriving DecidableEq, Repr

/-- The inner loop of `Fs.list` over the items of one page; `out` collects the
calls of the callback `fn(name, item)`. -/
def listItems (disk_root : Str) :
    List ResourceInfoResponse → List (Str × ResourceInfoResponse) → List (Str × ResourceInfoResponse)
  | [], out => out
  | item :: rest, out =>
    if HasPrefix item.Path disk_root then
      let name := TrimPrefix item.Path disk_root
      listItems disk_root rest (out ++ [(name, item)])
    else
      listItems disk_root rest out

/-- The outer loop of `Fs.list`, run for at most `fuel` page requests, with
the current value of the `uint32` variable `offset`. -/
def listLoop (f : Fs) (limit : Nat) : Nat → Nat → ListRun → ListRun
  | 0, _, t => t
  | fuel + 1, offset, t =>
    let opt : ListRequest := { limit := limit, offset := offset }
    match f.yd.FlatFileList t.requests opt with
    | Except.error err =>
      { t with requests := t.requests ++ [opt], errors := t.errors ++ [err], returned := true }
    | Except.ok items =>
      let itemsCount := items.length % 2 ^ 32
      let t1 : ListRun :=
        { t with requests := t.requests ++ [opt], pages := t.pages ++ [items],
                 yields := listItems f.disk_root items t.yields }
      let offset := (offset + itemsCount) % 2 ^ 32
      if itemsCount < limit then { t1 with returned := true }
      else listLoop f limit fuel offset t1

/-- `f.list(directories, fn)`, run for at most `fuel` page requests. -/
def Fs.list (f : Fs) (_directories : Bool) (fuel : Nat) : ListRun :=
  let limit : Nat := 1000
  let offset : Nat := 0
  listLoop f limit fuel offset
    { requests := [], pages := [], yields := [], errors := [], returned := false }

/-- The pages of a run are the answers of the listing source to its requests,
in order: request `i` was answered with page `i`, except that the last
request may have been answered with an error. -/
def Served (client : Client) : List ListRequest → List ListRequest →
    List (List ResourceInfoResponse) → Prop
  | _, [], ps => ps = []
  | log, r :: rs, [] => rs = [] ∧ ∃ err, client.FlatFileList log r = Except.error err
  | log, r :: rs, p :: ps =>
    client.FlatFileList log r = Except.ok p ∧ Served client (log ++ [r]) rs ps

/-- An item under the root, paired with its path minus the root; nothing for
an item whose path does not have the root as a literal prefix.  This follows
the words of the specification of the listing walker. -/
def relativeEntry (disk_root : Str) (item : ResourceInfoResponse) :
    Option (Str × ResourceInfoResponse) :=
  if disk_root <+: item.Path then some (item.Path.drop disk_root.length, item) else none

/-- A listing source that answers each of its first `k` requests with `limit`
copies of the item `x` and every later request with an empty page. -/
def fullPagesClient (k limit : Nat) (x : ResourceInfoResponse) : Client :=
  { createdClient with
    FlatFileList := fun log _ =>
      if log.length < k then Except.ok (List.replicate limit x) else Except.ok [] }

/-- The pages among the answers of the source: the page of an answer without
error, nothing for an error. -/
def okPages : Except Str (List ResourceInfoResponse) → List (List ResourceInfoResponse)
  | Except.ok page => [page]
  | Except.error _ => []

/-- The error of an answer of the source, as `Fs.list` logs it. -/
def loggedErrors : Except Str (List ResourceInfoResponse) → List Str
  | Except.ok _ => []
  | Except.error err => [err]

/-- The page requests of a walk that starts at `offset` and receives the
pages `ps` one after the other: each has limit 1000, and the offset advances
by the `uint32` item count of the page received. -/
def walkRequests : Nat → List (List ResourceInfoResponse) → List ListRequest
  | offset, [] => [{ limit := 1000, offset := offset }]
  | offset, p :: ps =>
    { limit := 1000, offset := offset } ::
      walkRequests ((offset + p.length % 2 ^ 32) % 2 ^ 32) ps

/-- The listing source, asked the requests of `walkRequests offset ps` after
the earlier requests `log`, answers them with the pages `ps`, one after the
other, and the request after them with `final`. -/
def SourceServes (client : Client) : List ListRequest → Nat →
    List (List ResourceInfoResponse) → Except Str (List ResourceInfoResponse) → Prop
  | log, offset, [], final =>
    client.FlatFileList log { limit := 1000, offset := offset } = final
  | log, offset, p :: ps, final =>
    client.FlatFileList log { limit := 1000, offset := offset } = Except.ok p ∧
      SourceServes client (log ++ [{ limit := 1000, offset := offset }])
        ((offset + p.length % 2 ^ 32) % 2 ^ 32) ps final

/-- A listing source that answers by position: its `i`-th request gets the
`i`-th page of `pages`, and every request after them an empty page. -/
def servePages (pages : List (List ResourceInfoResponse)) : Client :=
  { createdClient with
    FlatFileList := fun log _ => Except.ok (pages.getD log.length []) }

/-- A listing source that answers by request alone: the items of `items` from
position `offset` on, at most `limit` of them. -/
def offsetClient (items : List ResourceInfoResponse) : Client :=
  { createdClient with
    FlatFileList := fun _ req => Except.ok ((items.drop req.offset).take req.limit) }

/-- A path in normal form: it starts and ends with `/` and has no two
adjacent `/`. -/
def Normalized (p : Str) : Prop :=
  p.head? = some '/' ∧ p.getLast? = some '/' ∧
    p.Chain' (fun a b => ¬ (a = '/' ∧ b = '/'))

/-! ## Adapters used as examples -/

/-- An item under the root `remote`. -/
def sampleItem : ResourceInfoResponse :=
  { Path := "disk:/remote/file.bin".toList, Size := 7, Md5 := [], Modified := [] }

/-- An adapter with root `remote` whose listing source answers its first `k`
requests with 1000 copies of `sampleItem` and every later request with an
empty page. -/
def pagedFs (k : Nat) : Fs :=
  { name := [], yd := fullPagesClient k 1000 sampleItem, root := "remote".toList,
    disk_root := "disk:/remote/".toList, mkdircache := [] }

/-- An item outside the root `remote`. -/
def outsideItem : ResourceInfoResponse :=
  { Path := "disk:/other/file.bin".toList, Size := 3, Md5 := [], Modified := [] }

/-- An adapter with root `remote` over the client `yd`. -/
def remoteFs (yd : Client) : Fs :=
  { name := [], yd := yd, root := "remote".toList, disk_root := "disk:/remote/".toList,
    mkdircache := [] }


/-! ## Lemmas on the string functions and on the cache -/

theorem MkdirCache.get_set (m : MkdirCache) (k k2 : Str) (v : Int) :
    (m.set k v).get k2 = if k2 = k then v else m.get k2 := by
  unfold MkdirCache.get MkdirCache.set
  by_cases h : k2 = k
  · subst h; simp [List.lookup]
  · have : (k2 == k) = false := by simpa using h
    simp [List.lookup, this, h]

/-- No piece produced by `Split` contains the separator. -/
theorem Split_no_sep (s : Str) (sep : Char) : ∀ e ∈ Split s sep, sep ∉ e := by
  induction s with
  | nil => intro e he; simp [Split] at he; subst he; simp
  | cons c cs ih =>
    intro e he
    unfold Split at he
    split at he
    · rcases List.mem_cons.1 he with h | h
      · subst h; simp
      · exact ih e h
    · rename_i hc
      split at he
      · simp at he; subst he; simp; exact fun h => hc h.symm
      · rename_i piece pieces hsp
        rcases List.mem_cons.1 he with h | h
        · subst h
          have := ih piece (by rw [hsp]; simp)
          simp; exact ⟨fun h => hc h.symm, this⟩
        · exact ih e (by rw [hsp]; simp [h])

/-- Splitting a piece without separator, followed by a separator. -/
theorem Split_append_sep (e rest : Str) (sep : Char) (he : sep ∉ e) :
    Split (e ++ sep :: rest) sep = e :: Split rest sep := by
  induction e with
  | nil => simp [Split]
  | cons c cs ih =>
    have hc : c ≠ sep := fun h => he (by simp [h])
    have hcs : sep ∉ cs := fun h => he (by simp [h])
    rw [List.cons_append, Split, if_neg hc, ih hcs]

/-- The base name of a path that ends in a non-empty separator-free name which
is the whole path or follows a separator. -/
theorem Base_append_file (x file : Str) (hx : x = [] ∨ ∃ y, x = y ++ ['/'])
    (hne : file ≠ []) (hfile : '/' ∉ file) : Base (x ++ file) = file := by
  have hpath : x ++ file ≠ [] := by simp [hne]
  obtain ⟨c, cs, hrev⟩ : ∃ c cs, file.reverse = c :: cs := by
    cases h : file.reverse with
    | nil => exact absurd (List.reverse_eq_nil_iff.1 h) hne
    | cons c cs => exact ⟨c, cs, rfl⟩
  have hmem : ∀ a ∈ file.reverse, a ≠ '/' := by
    intro a ha h; subst h; exact hfile (List.mem_reverse.1 ha)
  have hc : c ≠ '/' := hmem c (by rw [hrev]; simp)
  have hstrip : ((x ++ file).reverse.dropWhile (fun a => a == '/')) = (x ++ file).reverse := by
    rw [List.reverse_append, hrev]
    have hb : (c == '/') = false := by simpa using hc
    simp [List.dropWhile, hb]
  have htake : ((x ++ file).reverse.takeWhile (fun a => a != '/')) = file.reverse := by
    rw [List.reverse_append]
    rcases hx with hx | ⟨y, hy⟩
    · subst hx
      simp
      intro a ha; exact hmem a (List.mem_reverse.2 ha)
    · have hy2 : x.reverse = '/' :: y.reverse := by rw [hy]; simp
      rw [hy2, List.takeWhile_append_of_pos]
      · simp [List.takeWhile]
      · intro a ha; simpa using hmem a ha
  unfold Base
  rw [if_neg hpath]
  simp only [hstrip, List.reverse_reverse, htake]
  rw [if_neg hne]

theorem TrimSuffix_append (x file : Str) : TrimSuffix (x ++ file) file = x := by
  unfold TrimSuffix HasSuffix
  have : file.isSuffixOf (x ++ file) = true := by
    rw [List.isSuffixOf_iff_suffix]; exact List.suffix_append x file
  rw [if_pos this]; simp

theorem TrimPrefix_append (p s : Str) : TrimPrefix (p ++ s) p = s := by
  unfold TrimPrefix HasPrefix
  have : p.isPrefixOf (p ++ s) = true := by
    rw [List.isPrefixOf_iff_prefix]; exact List.prefix_append p s
  rw [if_pos this]; simp

theorem TrimPrefix_of_not (p s : Str) (h : ¬ p <+: s) : TrimPrefix s p = s := by
  unfold TrimPrefix HasPrefix
  have : ¬ p.isPrefixOf s = true := by
    rw [List.isPrefixOf_iff_prefix]; exact h
  rw [if_neg this]

/-! ## Lemmas on the directory materialization loop -/

theorem mkdirPaths_append (a b : List Call) : mkdirPaths (a ++ b) = mkdirPaths a ++ mkdirPaths b := by
  induction a with
  | nil => rfl
  | cons c cs ih => cases c <;> simp [mkdirPaths, ih]

/-- One create-directory call that is not answered by a failure returns, logs
the call, and leaves the cache as it was or binds the path to `mkdirExist`. -/
theorem MkDirCached_ok (client : Client) (path : Str) (s : Run)
    (h : ¬ isFailure (client.Mkdir s.calls path)) :
    ∃ s1, MkDirCached client path s = Except.ok s1 ∧
      s1.calls = s.calls ++ [Call.mkdir path] ∧
      (s1.mkdircache = s.mkdircache ∨ s1.mkdircache = (path, mkdirExist) :: s.mkdircache) ∧
      ((isCreated (client.Mkdir s.calls path) ∨ isConflict (client.Mkdir s.calls path)) →
        s1.mkdircache = (path, mkdirExist) :: s.mkdircache) := by
  unfold isFailure at h
  unfold isCreated isConflict
  unfold MkDirCached
  by_cases he : (client.Mkdir s.calls path).err = none
  · by_cases hc : (client.Mkdir s.calls path).statusCode = 201
    · simp [he, hc, MkdirCache.set]
    · simp [he, hc]
  · have hc : (client.Mkdir s.calls path).statusCode = 409 := by
      by_contra hc; exact h ⟨he, hc⟩
    simp [he, hc, MkdirCache.set]

/-- One create-directory call answered by a failure halts, with the call
logged and the cache untouched. -/
theorem MkDirCached_fail (client : Client) (path : Str) (s : Run)
    (h : isFailure (client.Mkdir s.calls path)) :
    MkDirCached client path s =
      Except.error { mkdircache := s.mkdircache, calls := s.calls ++ [Call.mkdir path] } := by
  unfold isFailure at h
  unfold MkDirCached
  simp [h.1, h.2]

theorem mkdirLoop_skip (client : Client) (rest : List Str) (mp : Str) (s : Run) :
    mkdirLoop client ([] :: rest) mp s = mkdirLoop client rest mp s := by
  rw [mkdirLoop]; simp only [ne_eq, not_true_eq_false, if_false]

theorem mkdirLoop_cached (client : Client) (e : Str) (rest : List Str) (mp : Str) (s : Run)
    (he : e ≠ []) (hc : s.mkdircache.get (mp ++ e ++ ['/']) = mkdirExist) :
    mkdirLoop client (e :: rest) mp s = mkdirLoop client rest (mp ++ e ++ ['/']) s := by
  rw [mkdirLoop]; simp only [ne_eq, he, not_false_eq_true, if_true, hc, not_true_eq_false, if_false]

theorem mkdirLoop_call_ok (client : Client) (e : Str) (rest : List Str) (mp : Str) (s s1 : Run)
    (he : e ≠ []) (hc : s.mkdircache.get (mp ++ e ++ ['/']) ≠ mkdirExist)
    (h1 : MkDirCached client (mp ++ e ++ ['/']) s = Except.ok s1) :
    mkdirLoop client (e :: rest) mp s = mkdirLoop client rest (mp ++ e ++ ['/']) s1 := by
  rw [mkdirLoop]; simp only [ne_eq, he, not_false_eq_true, if_true, hc, h1]

theorem mkdirLoop_call_halt (client : Client) (e : Str) (rest : List Str) (mp : Str) (s halted : Run)
    (he : e ≠ []) (hc : s.mkdircache.get (mp ++ e ++ ['/']) ≠ mkdirExist)
    (h1 : MkDirCached client (mp ++ e ++ ['/']) s = Except.error halted) :
    mkdirLoop client (e :: rest) mp s = Except.error halted := by
  rw [mkdirLoop]; simp only [ne_eq, he, not_false_eq_true, if_true, hc, h1]

theorem dirChain_skip (rest : List Str) (mp : Str) :
    dirChain ([] :: rest) mp = dirChain rest mp := by
  rw [dirChain]; simp only [ne_eq, not_true_eq_false, if_false]

theorem dirChain_cons (e : Str) (rest : List Str) (mp : Str) (he : e ≠ []) :
    dirChain (e :: rest) mp = (mp ++ e ++ ['/']) :: dirChain rest (mp ++ e ++ ['/']) := by
  rw [dirChain]; simp only [ne_eq, he, not_false_eq_true, if_true]

/-- Whatever the client answers, the loop issues create-directory calls only
for values of `mkdirpath`, in their order, and only adds to the cache bindings
of issued paths to `mkdirExist`. -/
theorem mkdirLoop_trace (client : Client) (dirs : List Str) :
    ∀ (mp : Str) (s : Run),
      ∃ (issued : List Str) (added : MkdirCache),
        issued.Sublist (dirChain dirs mp) ∧
        (finalRun (mkdirLoop client dirs mp s)).calls = s.calls ++ issued.map Call.mkdir ∧
        (finalRun (mkdirLoop client dirs mp s)).mkdircache = added ++ s.mkdircache ∧
        ∀ kv ∈ added, kv.1 ∈ issued ∧ kv.2 = mkdirExist := by
  induction dirs with
  | nil =>
    intro mp s
    exact ⟨[], [], by simp [dirChain], by simp [mkdirLoop, finalRun], by simp [mkdirLoop, finalRun], by simp⟩
  | cons e rest ih =>
    intro mp s
    by_cases he : e = []
    · subst he
      rw [mkdirLoop_skip, dirChain_skip]; exact ih mp s
    · rw [dirChain_cons e rest mp he]
      by_cases hc : s.mkdircache.get (mp ++ e ++ ['/']) = mkdirExist
      · obtain ⟨issued, added, h1, h2, h3, h4⟩ := ih (mp ++ e ++ ['/']) s
        rw [mkdirLoop_cached client e rest mp s he hc]
        exact ⟨issued, added, List.Sublist.cons _ h1, h2, h3, h4⟩
      · by_cases hf : isFailure (client.Mkdir s.calls (mp ++ e ++ ['/']))
        · rw [mkdirLoop_call_halt client e rest mp s _ he hc (MkDirCached_fail client _ s hf)]
          exact ⟨[mp ++ e ++ ['/']], [], List.Sublist.cons₂ _ (List.nil_sublist _),
            by simp [finalRun], by simp [finalRun], by simp⟩
        · obtain ⟨s1, hs1, hcalls, hcache, _⟩ := MkDirCached_ok client _ s hf
          obtain ⟨issued, added, h1, h2, h3, h4⟩ := ih (mp ++ e ++ ['/']) s1
          rw [mkdirLoop_call_ok client e rest mp s s1 he hc hs1]
          rcases hcache with hcache | hcache
          · refine ⟨(mp ++ e ++ ['/']) :: issued, added, List.Sublist.cons₂ _ h1, ?_, ?_, ?_⟩
            · rw [h2, hcalls]; simp
            · rw [h3, hcache]
            · intro kv hkv; exact ⟨List.mem_cons_of_mem _ (h4 kv hkv).1, (h4 kv hkv).2⟩
          · refine ⟨(mp ++ e ++ ['/']) :: issued, added ++ [(mp ++ e ++ ['/'], mkdirExist)],
              List.Sublist.cons₂ _ h1, ?_, ?_, ?_⟩
            · rw [h2, hcalls]; simp
            · rw [h3, hcache]; simp
            · intro kv hkv
              rcases List.mem_append.1 hkv with hkv | hkv
              · exact ⟨List.mem_cons_of_mem _ (h4 kv hkv).1, (h4 kv hkv).2⟩
              · simp at hkv; subst hkv; simp

theorem mkdirExist_ne_zero : (0 : Int) ≠ mkdirExist := by decide

/-- With a client that answers 201 or 409, one call on an uncached path
returns and binds the path to `mkdirExist`. -/
theorem MkDirCached_good (client : Client) (hgood : AnswersCreatedOrConflict client)
    (path : Str) (s : Run) :
    MkDirCached client path s = Except.ok
      { mkdircache := (path, mkdirExist) :: s.mkdircache, calls := s.calls ++ [Call.mkdir path] } := by
  have hnf : ¬ isFailure (client.Mkdir s.calls path) := by
    rcases hgood s.calls path with h | h
    · exact fun hf => hf.1 h.1
    · exact fun hf => hf.2 h.2
  obtain ⟨s1, hs1, hcalls, _, hcache⟩ := MkDirCached_ok client path s hnf
  rw [hs1]
  have := hcache (hgood s.calls path)
  cases s1; simp_all

theorem get_cons (m : MkdirCache) (k k2 : Str) (v : Int) :
    MkdirCache.get ((k, v) :: m) k2 = if k2 = k then v else m.get k2 :=
  MkdirCache.get_set m k k2 v

/-- With a client that answers 201 or 409 the loop returns; afterwards every
value of `mkdirpath` is bound to `mkdirExist`, bindings to `mkdirExist` are
kept, and the invariant `CacheCoversCalls` is kept. -/
theorem mkdirLoop_good (client : Client) (hgood : AnswersCreatedOrConflict client)
    (dirs : List Str) :
    ∀ (mp : Str) (s : Run),
      ∃ s1, mkdirLoop client dirs mp s = Except.ok s1 ∧
        (∀ d ∈ dirChain dirs mp, s1.mkdircache.get d = mkdirExist) ∧
        (∀ k, s.mkdircache.get k = mkdirExist → s1.mkdircache.get k = mkdirExist) ∧
        (CacheCoversCalls s → CacheCoversCalls s1) := by
  induction dirs with
  | nil =>
    intro mp s
    exact ⟨s, by simp [mkdirLoop], by simp [dirChain], fun _ h => h, fun h => h⟩
  | cons e rest ih =>
    intro mp s
    by_cases he : e = []
    · subst he
      rw [mkdirLoop_skip, dirChain_skip]; exact ih mp s
    · rw [dirChain_cons e rest mp he]
      by_cases hc : s.mkdircache.get (mp ++ e ++ ['/']) = mkdirExist
      · obtain ⟨s1, h1, h2, h3, h4⟩ := ih (mp ++ e ++ ['/']) s
        rw [mkdirLoop_cached client e rest mp s he hc]
        refine ⟨s1, h1, ?_, h3, h4⟩
        intro d hd
        rcases List.mem_cons.1 hd with hd | hd
        · subst hd; exact h3 _ hc
        · exact h2 d hd
      · have hstep := MkDirCached_good client hgood (mp ++ e ++ ['/']) s
        rw [mkdirLoop_call_ok client e rest mp s _ he hc hstep]
        obtain ⟨s1, h1, h2, h3, h4⟩ := ih (mp ++ e ++ ['/'])
          { mkdircache := (mp ++ e ++ ['/'], mkdirExist) :: s.mkdircache,
            calls := s.calls ++ [Call.mkdir (mp ++ e ++ ['/'])] }
        refine ⟨s1, h1, ?_, ?_, ?_⟩
        · intro d hd
          rcases List.mem_cons.1 hd with hd | hd
          · subst hd; exact h3 _ (by simp [get_cons])
          · exact h2 d hd
        · intro k hk
          apply h3
          simp only [get_cons]
          split
          · rfl
          · exact hk
        · intro hinv
          apply h4
          obtain ⟨hnd, hcov⟩ := hinv
          constructor
          · simp only [mkdirPaths_append, mkdirPaths]
            rw [List.nodup_append]
            refine ⟨hnd, by simp, ?_⟩
            intro a ha hb
            rw [List.mem_singleton] at hb; subst hb
            exact hc (hcov _ ha)
          · intro p hp
            simp only [mkdirPaths_append, mkdirPaths, List.mem_append, List.mem_singleton] at hp
            simp only [get_cons]
            split
            · rfl
            · rcases hp with hp | hp
              · exact hcov p hp
              · contradiction

/-- When every value of `mkdirpath` is already bound to `mkdirExist` the loop
makes no call and changes nothing. -/
theorem mkdirLoop_idle (client : Client) (dirs : List Str) :
    ∀ (mp : Str) (s : Run), (∀ d ∈ dirChain dirs mp, s.mkdircache.get d = mkdirExist) →
      mkdirLoop client dirs mp s = Except.ok s := by
  induction dirs with
  | nil => intro mp s _; simp [mkdirLoop]
  | cons e rest ih =>
    intro mp s h
    by_cases he : e = []
    · subst he
      rw [mkdirLoop_skip]; rw [dirChain_skip] at h; exact ih mp s h
    · rw [dirChain_cons e rest mp he] at h
      rw [mkdirLoop_cached client e rest mp s he (h _ (by simp))]
      exact ih _ s (fun d hd => h d (List.mem_cons_of_mem _ hd))

/-- A sequence of calls with a client that answers 201 or 409 returns, keeps
the invariant, keeps bindings, and leaves every ancestor directory of every
path of the sequence bound to `mkdirExist`. -/
theorem runPaths_good (client : Client) (hgood : AnswersCreatedOrConflict client)
    (paths : List Str) :
    ∀ s : Run, ∃ s1, runPaths client paths s = Except.ok s1 ∧
      (CacheCoversCalls s → CacheCoversCalls s1) ∧
      (∀ k, s.mkdircache.get k = mkdirExist → s1.mkdircache.get k = mkdirExist) ∧
      (∀ p ∈ paths, ∀ d ∈ ancestorDirs p, s1.mkdircache.get d = mkdirExist) := by
  induction paths with
  | nil => intro s; exact ⟨s, rfl, fun h => h, fun _ h => h, by simp⟩
  | cons p rest ih =>
    intro s
    obtain ⟨s1, h1, h2, h3, h4⟩ := mkdirLoop_good client hgood (pathDirs p) ['/'] s
    obtain ⟨s2, k1, k2, k3, k4⟩ := ih s1
    refine ⟨s2, ?_, fun h => k2 (h4 h), fun k hk => k3 k (h3 k hk), ?_⟩
    · simp only [runPaths, MkDirFullPathCached, h1]; exact k1
    · intro q hq d hd
      rcases List.mem_cons.1 hq with hq | hq
      · subst hq; exact k3 d (h2 d hd)
      · exact k4 q hq d hd

/-- Under a client that answers 201 or 409, a path whose pieces are all
non-empty and whose cache holds no binding to `mkdirExist` for a path longer
than `mp` gets one call for every value of `mkdirpath`. -/
theorem mkdirLoop_fresh (client : Client) (hgood : AnswersCreatedOrConflict client)
    (dirs : List Str) :
    ∀ (mp : Str) (s : Run),
      (∀ k, s.mkdircache.get k = mkdirExist → k.length ≤ mp.length) →
      ∃ s1, mkdirLoop client dirs mp s = Except.ok s1 ∧
        s1.calls = s.calls ++ (dirChain dirs mp).map Call.mkdir ∧
        s1.mkdircache = ((dirChain dirs mp).map (fun d => (d, mkdirExist))).reverse ++ s.mkdircache := by
  induction dirs with
  | nil => intro mp s _; exact ⟨s, by simp [mkdirLoop], by simp [dirChain], by simp [dirChain]⟩
  | cons e rest ih =>
    intro mp s hs
    by_cases he : e = []
    · subst he
      rw [mkdirLoop_skip, dirChain_skip]; exact ih mp s hs
    · have hlen : mp.length < (mp ++ e ++ ['/']).length := by simp
      have hc : s.mkdircache.get (mp ++ e ++ ['/']) ≠ mkdirExist := by
        intro h; have := hs _ h; omega
      have hstep := MkDirCached_good client hgood (mp ++ e ++ ['/']) s
      rw [mkdirLoop_call_ok client e rest mp s _ he hc hstep, dirChain_cons e rest mp he]
      obtain ⟨s1, h1, h2, h3⟩ := ih (mp ++ e ++ ['/'])
        { mkdircache := (mp ++ e ++ ['/'], mkdirExist) :: s.mkdircache,
          calls := s.calls ++ [Call.mkdir (mp ++ e ++ ['/'])] } (by
          intro k hk
          simp only [get_cons] at hk
          split at hk
          · rename_i hk2; rw [hk2]
          · have := hs k hk; omega)
      refine ⟨s1, h1, ?_, ?_⟩
      · rw [h2]; simp
      · rw [h3]; simp

/-- The values of `mkdirpath` for a list of non-empty pieces: the `i`-th one
is `mp` followed by the first `i + 1` pieces, each with a trailing `/`. -/
theorem dirChain_eq_range (segs : List Str) (hne : ∀ e ∈ segs, e ≠ []) :
    ∀ mp : Str, dirChain segs mp =
      (List.range segs.length).map
        (fun i => mp ++ ((segs.take (i + 1)).map (fun e => e ++ ['/'])).flatten) := by
  induction segs with
  | nil => intro mp; simp [dirChain]
  | cons e rest ih =>
    intro mp
    rw [dirChain_cons e rest mp (hne e (by simp)), ih (fun x hx => hne x (by simp [hx]))]
    rw [List.length_cons, List.range_succ_eq_map]
    simp [List.map_map, Function.comp_def]

theorem dirChain_append_empty (segs : List Str) :
    ∀ mp : Str, dirChain (segs ++ [[]]) mp = dirChain segs mp := by
  induction segs with
  | nil => intro mp; simp [dirChain]
  | cons e rest ih =>
    intro mp
    by_cases he : e = []
    · subst he; rw [List.cons_append, dirChain_skip, dirChain_skip, ih]
    · rw [List.cons_append, dirChain_cons _ _ _ he, dirChain_cons _ _ _ he, ih]

/-- Splitting a concatenation of separator-free pieces, each followed by a
separator, gives the pieces back and a last empty piece. -/
theorem Split_join (segs : List Str) (sep : Char) (h : ∀ e ∈ segs, sep ∉ e) :
    Split ((segs.map (fun e => e ++ [sep])).flatten) sep = segs ++ [[]] := by
  induction segs with
  | nil => simp [Split]
  | cons e rest ih =>
    simp only [List.map_cons, List.flatten_cons, List.append_assoc, List.singleton_append]
    rw [Split_append_sep e _ sep (h e (by simp)), ih (fun x hx => h x (by simp [hx]))]
    simp

theorem intercalate_snoc (sep : Str) (segs : List Str) (file : Str) :
    sep.intercalate (segs ++ [file]) = ((segs.map (fun e => e ++ sep)).flatten) ++ file := by
  induction segs with
  | nil => simp [List.intercalate]
  | cons e rest ih =>
    cases rest with
    | nil => simp [List.intercalate, List.intersperse]
    | cons e2 rest2 =>
      have h2 : (List.intersperse sep (e2 :: (rest2 ++ [file]))).flatten
          = (List.map (fun e => e ++ sep) (e2 :: rest2)).flatten ++ file := ih
      show (List.intersperse sep (e :: e2 :: (rest2 ++ [file]))).flatten = _
      rw [List.intersperse_cons₂, List.flatten_cons, List.flatten_cons, h2]
      simp

/-- A concatenation of pieces that each end in `/`, after an optional root
marker, is empty or ends in `/`. -/
theorem dirString_shape (marked : Bool) (segs : List Str) :
    let x := (if marked then diskMarker else []) ++ (segs.map (fun e => e ++ ['/'])).flatten
    x = [] ∨ ∃ y, x = y ++ ['/'] := by
  intro x
  rcases List.eq_nil_or_concat segs with h | ⟨init, l, h⟩
  · subst h
    cases marked
    · left; rfl
    · right; exact ⟨['d', 'i', 's', 'k', ':'], rfl⟩
  · right
    refine ⟨(if marked then diskMarker else []) ++ (init.map (fun e => e ++ ['/'])).flatten ++ l, ?_⟩
    show (if marked then diskMarker else []) ++ (segs.map (fun e => e ++ ['/'])).flatten = _
    rw [h]; simp

/-- The value of `dirs` for a well-formed path: its directory segments and a
last empty piece. -/
theorem pathDirs_wellformed (segs : List Str) (file : Str) (marked : Bool)
    (hsegs : ∀ e ∈ segs, e ≠ [] ∧ '/' ∉ e) (hfile : file ≠ [] ∧ '/' ∉ file)
    (hmark : marked = false → ¬ diskMarker <+: ['/'].intercalate (segs ++ [file])) :
    pathDirs ((if marked then diskMarker else []) ++ ['/'].intercalate (segs ++ [file]))
      = segs ++ [[]] := by
  rw [intercalate_snoc] at hmark ⊢
  unfold pathDirs
  simp only
  rw [← List.append_assoc, Base_append_file _ file (dirString_shape marked segs) hfile.1 hfile.2,
    TrimSuffix_append]
  have htrim : TrimPrefix ((if marked then diskMarker else []) ++
      (segs.map (fun e => e ++ ['/'])).flatten) diskMarker
      = (segs.map (fun e => e ++ ['/'])).flatten := by
    cases marked
    · simp only [Bool.false_eq_true, if_false, List.nil_append]
      apply TrimPrefix_of_not
      intro hp
      exact hmark rfl (hp.trans (List.prefix_append _ _))
    · simp only [if_true]
      exact TrimPrefix_append _ _
  rw [htrim]
  exact Split_join segs '/' (fun e he => (hsegs e he).2)

theorem chain_of_no_slash (e : Str) (h : '/' ∉ e) :
    e.Chain' (fun a b => ¬ (a = '/' ∧ b = '/')) := by
  induction e with
  | nil => exact List.chain'_nil
  | cons a l ih =>
    rw [List.chain'_cons']
    refine ⟨fun y _ hy => h (by simp [hy.1]), ih (fun hl => h (List.mem_cons_of_mem _ hl))⟩

/-- Appending a non-empty separator-free piece and a `/` keeps the normal
form. -/
theorem Normalized_step (mp e : Str) (hmp : Normalized mp) (he : e ≠ []) (hs : '/' ∉ e) :
    Normalized (mp ++ e ++ ['/']) := by
  obtain ⟨h1, h2, h3⟩ := hmp
  obtain ⟨a, l, rfl⟩ : ∃ a l, e = a :: l := by
    cases e with
    | nil => exact absurd rfl he
    | cons a l => exact ⟨a, l, rfl⟩
  have ha : a ≠ '/' := fun h => hs (by simp [h])
  refine ⟨?_, List.getLast?_concat _, ?_⟩
  · cases mp with
    | nil => simp at h1
    | cons c cs => simpa using h1
  · rw [List.append_assoc]
    refine List.Chain'.append h3 ?_ ?_
    · refine List.Chain'.append (chain_of_no_slash _ hs) (List.chain'_singleton _) ?_
      intro x hx y _ hxy
      have : x ∈ a :: l := List.mem_of_mem_getLast? hx
      exact hs (by rw [← hxy.1]; exact this)
    · intro x _ y hy hxy
      simp at hy
      exact ha (hy ▸ hxy.2)

/-- A normal path has no doubled separator. -/
theorem Normalized_no_double (p : Str) (h : Normalized p) : ¬ ['/', '/'] <:+: p := by
  intro hin
  have := List.Chain'.infix h.2.2 hin
  simp at this

/-- Every value of `mkdirpath` is in normal form, properly extends the start
value, and is a proper prefix of the later values. -/
theorem dirChain_normalized (dirs : List Str) (hdirs : ∀ e ∈ dirs, '/' ∉ e) :
    ∀ mp : Str, Normalized mp →
      (∀ d ∈ dirChain dirs mp, Normalized d ∧ mp <+: d ∧ mp.length + 2 ≤ d.length) ∧
      (dirChain dirs mp).Pairwise (fun a b => a <+: b ∧ a ≠ b) := by
  induction dirs with
  | nil => intro mp _; simp [dirChain]
  | cons e rest ih =>
    intro mp hmp
    have hrest : ∀ x ∈ rest, '/' ∉ x := fun x hx => hdirs x (List.mem_cons_of_mem _ hx)
    by_cases he : e = []
    · subst he; rw [dirChain_skip]; exact ih hrest mp hmp
    · rw [dirChain_cons e rest mp he]
      have hn := Normalized_step mp e hmp he (hdirs e (by simp))
      have hlen : 0 < e.length := List.length_pos.2 he
      obtain ⟨k1, k2⟩ := ih hrest (mp ++ e ++ ['/']) hn
      have hpre : mp <+: mp ++ e ++ ['/'] := by
        rw [List.append_assoc]; exact List.prefix_append _ _
      constructor
      · intro d hd
        rcases List.mem_cons.1 hd with hd | hd
        · subst hd
          exact ⟨hn, hpre, by simp; omega⟩
        · obtain ⟨m1, m2, m3⟩ := k1 d hd
          refine ⟨m1, hpre.trans m2, ?_⟩
          simp at m3; omega
      · rw [List.pairwise_cons]
        refine ⟨?_, k2⟩
        intro d hd
        obtain ⟨_, m2, m3⟩ := k1 d hd
        refine ⟨m2, ?_⟩
        intro heq
        rw [← heq] at m3; omega

theorem map_mkdir_injective : Function.Injective (List.map Call.mkdir) :=
  List.map_injective_iff.2 (fun a b h => by injection h)

/-- If the log of a run of the loop shows a create-directory call that the
client answered with a failure, then that call is the last one of the run,
the run was halted, and the cache gained only bindings of paths issued before
that call. -/
theorem mkdirLoop_failure_stops (client : Client) (dirs : List Str) :
    ∀ (mp : Str) (s : Run) (pre : List Str) (d : Str) (post : List Call),
      (finalRun (mkdirLoop client dirs mp s)).calls
        = s.calls ++ pre.map Call.mkdir ++ Call.mkdir d :: post →
      isFailure (client.Mkdir (s.calls ++ pre.map Call.mkdir) d) →
      post = [] ∧
      mkdirLoop client dirs mp s = Except.error (finalRun (mkdirLoop client dirs mp s)) ∧
      ∃ added, (finalRun (mkdirLoop client dirs mp s)).mkdircache = added ++ s.mkdircache ∧
        ∀ kv ∈ added, kv.1 ∈ pre ∧ kv.2 = mkdirExist := by
  induction dirs with
  | nil =>
    intro mp s pre d post hlog _
    simp only [mkdirLoop, finalRun] at hlog
    have := congrArg List.length hlog
    simp at this
  | cons e rest ih =>
    intro mp s pre d post hlog hfail
    by_cases he : e = []
    · subst he
      rw [mkdirLoop_skip] at hlog ⊢
      exact ih mp s pre d post hlog hfail
    · by_cases hc : s.mkdircache.get (mp ++ e ++ ['/']) = mkdirExist
      · rw [mkdirLoop_cached client e rest mp s he hc] at hlog ⊢
        exact ih _ s pre d post hlog hfail
      · by_cases hf : isFailure (client.Mkdir s.calls (mp ++ e ++ ['/']))
        · rw [mkdirLoop_call_halt client e rest mp s _ he hc (MkDirCached_fail client _ s hf)]
            at hlog ⊢
          simp only [finalRun, List.append_assoc, List.append_cancel_left_eq] at hlog
          cases pre with
          | nil =>
            simp only [List.map_nil, List.nil_append, List.cons.injEq] at hlog
            exact ⟨hlog.2.symm, rfl, [], by simp [finalRun], by simp⟩
          | cons p pre2 =>
            simp only [List.map_cons, List.cons_append, List.cons.injEq] at hlog
            have := congrArg List.length hlog.2
            simp at this; omega
        · obtain ⟨s1, hs1, hcalls, hcache, _⟩ := MkDirCached_ok client _ s hf
          rw [mkdirLoop_call_ok client e rest mp s s1 he hc hs1] at hlog ⊢
          obtain ⟨issued, _, _, htrace, _, _⟩ := mkdirLoop_trace client rest (mp ++ e ++ ['/']) s1
          have hlog2 := hlog
          rw [htrace, hcalls] at hlog2
          simp only [List.append_assoc, List.append_cancel_left_eq, List.singleton_append] at hlog2
          cases pre with
          | nil =>
            simp only [List.map_nil, List.nil_append, List.cons.injEq, Call.mkdir.injEq] at hlog2
            rw [List.map_nil, List.append_nil, ← hlog2.1] at hfail
            exact absurd hfail (by simpa using hf)
          | cons p pre2 =>
            simp only [List.map_cons, List.cons_append, List.cons.injEq, Call.mkdir.injEq] at hlog2
            obtain ⟨hp, hl⟩ := hlog2
            subst hp
            have hlog3 : (finalRun (mkdirLoop client rest (mp ++ e ++ ['/']) s1)).calls
                = s1.calls ++ pre2.map Call.mkdir ++ Call.mkdir d :: post := by
              rw [htrace, hl]; simp
            have hfail3 : isFailure (client.Mkdir (s1.calls ++ pre2.map Call.mkdir) d) := by
              rw [hcalls]; simpa using hfail
            obtain ⟨k1, k2, added, k3, k4⟩ := ih _ s1 pre2 d post hlog3 hfail3
            refine ⟨k1, k2, ?_⟩
            rcases hcache with hcache | hcache
            · refine ⟨added, by rw [k3, hcache], ?_⟩
              intro kv hkv
              exact ⟨List.mem_cons_of_mem _ (k4 kv hkv).1, (k4 kv hkv).2⟩
            · refine ⟨added ++ [(mp ++ e ++ ['/'], mkdirExist)], by rw [k3, hcache]; simp, ?_⟩
              intro kv hkv
              rcases List.mem_append.1 hkv with hkv | hkv
              · exact ⟨List.mem_cons_of_mem _ (k4 kv hkv).1, (k4 kv hkv).2⟩
              · rw [List.mem_singleton] at hkv; subst hkv
                exact ⟨by simp, rfl⟩

/-- When the directories of the target are materialized without a fatal
error, `Put` makes one upload call to the full remote path with overwrite set
and returns the object paired with the error of that upload. -/
theorem Put_ok (f : Fs) (data : List Nat) (remote : Str) (modTime size : Int)
    (calls : List Call) (s1 : Run)
    (h : MkDirFullPathCached f.yd (f.disk_root ++ remote)
      { mkdircache := f.mkdircache, calls := calls } = Except.ok s1) :
    f.Put data remote modTime size calls = Except.ok
      ({ fs := { f with mkdircache := s1.mkdircache }, remote := remote, md5sum := [],
         bytes := (size % 2 ^ 64).toNat, modTime := 0, item := ResourceInfoResponse.zero },
       s1.calls ++ [Call.upload data (f.disk_root ++ remote) true],
       f.yd.Upload s1.calls data (f.disk_root ++ remote) true) := by
  unfold Fs.Put Object.Update Object.remotePath
  simp only [h]

/-! ## Lemmas on the listing walker -/

theorem listItems_eq (dr : Str) (items : List ResourceInfoResponse) :
    ∀ out, listItems dr items out = out ++ items.filterMap (relativeEntry dr) := by
  induction items with
  | nil => intro out; simp [listItems]
  | cons item rest ih =>
    intro out
    unfold listItems
    by_cases h : dr <+: item.Path
    · have hb : HasPrefix item.Path dr = true := by
        unfold HasPrefix; rw [List.isPrefixOf_iff_prefix]; exact h
      have ht : TrimPrefix item.Path dr = item.Path.drop dr.length := by
        unfold TrimPrefix; rw [if_pos hb]
      rw [if_pos hb, ih]
      simp [List.filterMap_cons, relativeEntry, h, ht]
    · have hb : ¬ HasPrefix item.Path dr = true := by
        unfold HasPrefix; rw [List.isPrefixOf_iff_prefix]; exact h
      rw [if_neg hb, ih]
      simp [List.filterMap_cons, relativeEntry, h]

theorem Served_snoc_ok (client : Client) (rs : List ListRequest) :
    ∀ (log : List ListRequest) (ps : List (List ResourceInfoResponse)) (r : ListRequest)
      (p : List ResourceInfoResponse),
      Served client log rs ps → ps.length = rs.length →
      client.FlatFileList (log ++ rs) r = Except.ok p →
      Served client log (rs ++ [r]) (ps ++ [p]) := by
  induction rs with
  | nil =>
    intro log ps r p hs _ hr
    simp only [Served] at hs
    subst hs
    simpa [Served] using hr
  | cons r0 rs ih =>
    intro log ps r p hs hlen hr
    cases ps with
    | nil => simp at hlen
    | cons p0 ps =>
      simp only [Served] at hs
      simp only [List.cons_append, Served]
      refine ⟨hs.1, ih _ ps r p hs.2 (by simpa using hlen) (by simpa using hr)⟩

theorem Served_snoc_error (client : Client) (rs : List ListRequest) :
    ∀ (log : List ListRequest) (ps : List (List ResourceInfoResponse)) (r : ListRequest)
      (err : Str),
      Served client log rs ps → ps.length = rs.length →
      client.FlatFileList (log ++ rs) r = Except.error err →
      Served client log (rs ++ [r]) ps := by
  induction rs with
  | nil =>
    intro log ps r err hs _ hr
    simp only [Served] at hs
    subst hs
    simp only [List.nil_append, Served, true_and]
    exact ⟨err, by simpa using hr⟩
  | cons r0 rs ih =>
    intro log ps r err hs hlen hr
    cases ps with
    | nil => simp at hlen
    | cons p0 ps =>
      simp only [Served] at hs
      simp only [List.cons_append, Served]
      refine ⟨hs.1, ih _ ps r err hs.2 (by simpa using hlen) (by simpa using hr)⟩

/-- The outer loop keeps: the pages are the answers to the requests, and the
callback received exactly the entries of the pages that are under the root. -/
theorem listLoop_invariant (f : Fs) (limit : Nat) (fuel : Nat) :
    ∀ (offset : Nat) (t : ListRun),
      t.pages.length = t.requests.length → Served f.yd [] t.requests t.pages →
      t.yields = t.pages.flatten.filterMap (relativeEntry f.disk_root) →
      Served f.yd [] (listLoop f limit fuel offset t).requests
          (listLoop f limit fuel offset t).pages ∧
        (listLoop f limit fuel offset t).yields
          = (listLoop f limit fuel offset t).pages.flatten.filterMap (relativeEntry f.disk_root) := by
  induction fuel with
  | zero => intro offset t _ hs hy; exact ⟨hs, hy⟩
  | succ fuel ih =>
    intro offset t hlen hs hy
    unfold listLoop
    simp only
    cases hr : f.yd.FlatFileList t.requests { limit := limit, offset := offset } with
    | error err =>
      simp only
      exact ⟨Served_snoc_error f.yd t.requests [] t.pages _ err hs hlen (by simpa using hr), hy⟩
    | ok items =>
      simp only
      have hs1 := Served_snoc_ok f.yd t.requests [] t.pages _ items hs hlen (by simpa using hr)
      have hy1 : listItems f.disk_root items t.yields
          = (t.pages ++ [items]).flatten.filterMap (relativeEntry f.disk_root) := by
        rw [listItems_eq, hy]; simp
      split
      · exact ⟨hs1, hy1⟩
      · exact ih _ _ (by simp [hlen]) hs1 hy1

/-- Once the loop has returned, more fuel changes nothing. -/
theorem listLoop_stable (f : Fs) (limit : Nat) (fuel : Nat) :
    ∀ (offset : Nat) (t : ListRun) (n : Nat), t.returned = false →
      (listLoop f limit fuel offset t).returned = true →
      listLoop f limit (fuel + n) offset t = listLoop f limit fuel offset t := by
  induction fuel with
  | zero =>
    intro offset t n ht hret
    simp only [listLoop] at hret
    rw [ht] at hret; exact absurd hret (by decide)
  | succ fuel ih =>
    intro offset t n ht hret
    rw [show fuel + 1 + n = (fuel + n) + 1 by omega]
    unfold listLoop at hret ⊢
    simp only at hret ⊢
    cases hr : f.yd.FlatFileList t.requests { limit := limit, offset := offset } with
    | error err => simp only [hr]
    | ok items =>
      simp only [hr] at hret ⊢
      split
      · rfl
      · rename_i hc
        rw [if_neg hc] at hret
        exact ih _ _ n ht hret

/-- When the first `k` answers of the source are pages of exactly 1000 items
and the next one is shorter, the loop started before request `k - m` in
a state that has not returned makes `m + 1` further requests and returns. -/
theorem listLoop_full_pages (f : Fs) (k : Nat)
    (hfull : ∀ log req, log.length < k →
      ∃ items, f.yd.FlatFileList log req = Except.ok items ∧ items.length = 1000)
    (hshort : ∀ log req, log.length = k →
      ∃ items, f.yd.FlatFileList log req = Except.ok items ∧ items.length < 1000)
    (m : Nat) :
    ∀ (offset : Nat) (t : ListRun), t.requests.length + m = k → offset < 4294967296 →
      ∃ newPages : List (List ResourceInfoResponse),
        newPages.length = m + 1 ∧
        (∀ p ∈ newPages.take m, p.length = 1000) ∧
        (∀ p ∈ newPages.drop m, p.length < 1000) ∧
        (listLoop f 1000 (m + 1) offset t).pages = t.pages ++ newPages ∧
        (listLoop f 1000 (m + 1) offset t).requests = t.requests ++
          (List.range (m + 1)).map
            (fun i => { limit := 1000, offset := (offset + 1000 * i) % 4294967296 }) ∧
        (listLoop f 1000 (m + 1) offset t).errors = t.errors ∧
        (listLoop f 1000 (m + 1) offset t).returned = true := by
  have h232 : (2 : Nat) ^ 32 = 4294967296 := by norm_num
  induction m with
  | zero =>
    intro offset t hk hoff
    obtain ⟨items, hr, hlen⟩ := hshort t.requests { limit := 1000, offset := offset } (by omega)
    have hcount : items.length % 4294967296 < 1000 := by omega
    refine ⟨[items], rfl, by simp, by simpa using hlen, ?_, ?_, ?_, ?_⟩
    all_goals
      unfold listLoop
      simp only [hr, h232, hcount, if_true]
    simp [List.range_succ, Nat.mod_eq_of_lt hoff]
  | succ m ih =>
    intro offset t hk hoff
    obtain ⟨items, hr, hlen⟩ := hfull t.requests { limit := 1000, offset := offset } (by omega)
    have hcount : ¬ items.length % 4294967296 < 1000 := by omega
    have hstep : listLoop f 1000 (m + 1 + 1) offset t
        = listLoop f 1000 (m + 1) ((offset + 1000) % 4294967296)
            { t with requests := t.requests ++ [{ limit := 1000, offset := offset }],
                     pages := t.pages ++ [items],
                     yields := listItems f.disk_root items t.yields } := by
      rw [listLoop]
      simp only [hr, h232, hcount, if_false]
      rw [hlen]
    rw [hstep]
    obtain ⟨newPages, k1, k2, k3, k4, k5, k6, k7⟩ := ih ((offset + 1000) % 4294967296)
      { t with requests := t.requests ++ [{ limit := 1000, offset := offset }],
               pages := t.pages ++ [items],
               yields := listItems f.disk_root items t.yields }
      (by simp; omega) (Nat.mod_lt _ (by norm_num))
    refine ⟨items :: newPages, by simp [k1], ?_, ?_, ?_, ?_, k6, k7⟩
    · intro p hp
      rw [List.take_succ_cons] at hp
      rcases List.mem_cons.1 hp with hp | hp
      · rw [hp]; exact hlen
      · exact k2 p hp
    · intro p hp
      rw [List.drop_succ_cons] at hp
      exact k3 p hp
    · rw [k4]; simp
    · have harith : ∀ i, ((offset + 1000) % 4294967296 + 1000 * i) % 4294967296
          = (offset + 1000 * (i + 1)) % 4294967296 := by
        intro i; omega
      rw [k5, List.range_succ_eq_map (m + 1)]
      simp only [harith, List.append_assoc, List.singleton_append, List.map_cons, List.map_map,
        Nat.mul_zero, Nat.add_zero, Nat.mod_eq_of_lt hoff, Function.comp_def,
        Nat.succ_eq_add_one]

theorem sum_length_of_const (l : List (List ResourceInfoResponse)) (c : Nat)
    (h : ∀ p ∈ l, p.length = c) : (l.map List.length).sum = c * l.length := by
  induction l with
  | nil => simp
  | cons p rest ih =>
    simp only [List.map_cons, List.sum_cons, List.length_cons]
    rw [h p (by simp), ih (fun q hq => h q (by simp [hq]))]
    ring

/-- Under the hypotheses of `listLoop_full_pages`, a run of `Fs.list` with
fuel `k + 1`: it has returned after `k + 1` requests, request `i` carries
limit 1000 and offset `1000 * i` modulo `2 ^ 32`, and the pages before page
`i` hold `1000 * i` items. -/
theorem list_full_pages (f : Fs) (directories : Bool) (k : Nat)
    (hfull : ∀ log req, log.length < k →
      ∃ items, f.yd.FlatFileList log req = Except.ok items ∧ items.length = 1000)
    (hshort : ∀ log req, log.length = k →
      ∃ items, f.yd.FlatFileList log req = Except.ok items ∧ items.length < 1000) :
    (f.list directories (k + 1)).returned = true ∧
    (f.list directories (k + 1)).errors = [] ∧
    (f.list directories (k + 1)).requests.length = k + 1 ∧
    (f.list directories (k + 1)).pages.length = k + 1 ∧
    (∀ i, i ≤ k → (f.list directories (k + 1)).requests[i]?
      = some { limit := 1000, offset := (1000 * i) % 4294967296 }) ∧
    (∀ i, i ≤ k →
      (((f.list directories (k + 1)).pages.take i).map List.length).sum = 1000 * i) := by
  obtain ⟨newPages, k1, k2, _, k4, k5, k6, k7⟩ := listLoop_full_pages f k hfull hshort k 0
    { requests := [], pages := [], yields := [], errors := [], returned := false }
    (by simp) (by norm_num)
  have hlist : f.list directories (k + 1) = listLoop f 1000 (k + 1) 0
      { requests := [], pages := [], yields := [], errors := [], returned := false } := rfl
  rw [hlist]
  simp only [List.nil_append, Nat.zero_add] at k4 k5 k6
  refine ⟨k7, k6, by rw [k5]; simp, by rw [k4, k1], ?_, ?_⟩
  · intro i hi
    rw [k5, List.getElem?_map, List.getElem?_range (by omega)]
    rfl
  · intro i hi
    rw [k4, sum_length_of_const (newPages.take i) 1000]
    · rw [List.length_take]; congr 1; omega
    · intro p hp
      apply k2 p
      have : newPages.take i = (newPages.take k).take i := by
        rw [List.take_take]; congr 1; omega
      rw [this] at hp
      exact List.mem_of_mem_take hp

theorem pagedFs_full (k : Nat) : ∀ (log : List ListRequest) (req : ListRequest), log.length < k →
    ∃ items, (pagedFs k).yd.FlatFileList log req = Except.ok items ∧ items.length = 1000 :=
  fun _ _ h => ⟨List.replicate 1000 sampleItem, if_pos h, List.length_replicate _ _⟩

theorem pagedFs_short (k : Nat) : ∀ (log : List ListRequest) (req : ListRequest), log.length = k →
    ∃ items, (pagedFs k).yd.FlatFileList log req = Except.ok items ∧ items.length < 1000 :=
  fun _ _ h => ⟨[], if_neg (by omega), by simp⟩

/-- A pair produced by `relativeEntry` comes from an item under the root and
holds its path minus the root. -/
theorem relativeEntry_some (dr : Str) (item : ResourceInfoResponse)
    (y : Str × ResourceInfoResponse) (h : relativeEntry dr item = some y) :
    dr <+: item.Path ∧ dr ++ y.1 = item.Path ∧ y.2 = item := by
  unfold relativeEntry at h
  split at h
  · rename_i hp
    simp only [Option.some.injEq] at h
    subst h
    obtain ⟨rest, hrest⟩ := hp
    refine ⟨⟨rest, hrest⟩, ?_, rfl⟩
    show dr ++ List.drop dr.length item.Path = item.Path
    rw [← hrest]; simp
  · exact absurd h (by simp)

/-- A run of the loop against a source that serves the pages `ps`, none of
which ends the walk, and then `final`, which does: after `ps.length + 1`
requests the loop has returned, having made the requests of the walk, received
the pages, handed the entries under the root to the callback in order, and
logged the error of `final` if it is one. -/
theorem listLoop_walk (f : Fs) (ps : List (List ResourceInfoResponse))
    (final : Except Str (List ResourceInfoResponse))
    (hfinal : ∀ last, final = Except.ok last → last.length % 2 ^ 32 < 1000) :
    ∀ (offset : Nat) (t : ListRun),
      (∀ p ∈ ps, ¬ p.length % 2 ^ 32 < 1000) →
      SourceServes f.yd t.requests offset ps final →
      listLoop f 1000 (ps.length + 1) offset t =
        { requests := t.requests ++ walkRequests offset ps,
          pages := t.pages ++ (ps ++ okPages final),
          yields := t.yields ++
            (ps ++ okPages final).flatten.filterMap (relativeEntry f.disk_root),
          errors := t.errors ++ loggedErrors final,
          returned := true } := by
  induction ps with
  | nil =>
    intro offset t _ hsrc
    simp only [SourceServes] at hsrc
    cases final with
    | error err =>
      simp [listLoop, hsrc, walkRequests, okPages, loggedErrors]
    | ok last =>
      have hshort := hfinal last rfl
      rw [List.length_nil, Nat.zero_add, listLoop]
      simp only [hsrc, hshort, if_true]
      simp [walkRequests, okPages, loggedErrors, listItems_eq]
  | cons p ps ih =>
    intro offset t hps hsrc
    simp only [SourceServes] at hsrc
    have hp : ¬ p.length % 2 ^ 32 < 1000 := hps p (by simp)
    have hstep : listLoop f 1000 ((p :: ps).length + 1) offset t
        = listLoop f 1000 (ps.length + 1) ((offset + p.length % 2 ^ 32) % 2 ^ 32)
            { t with requests := t.requests ++ [{ limit := 1000, offset := offset }],
                     pages := t.pages ++ [p],
                     yields := listItems f.disk_root p t.yields } := by
      rw [List.length_cons, listLoop]
      simp only [hsrc.1, hp, if_false]
    rw [hstep, ih _ _ (fun q hq => hps q (List.mem_cons_of_mem _ hq)) hsrc.2]
    simp [walkRequests, listItems_eq]

/-- The requests of a walk over pages of exactly 1000 items: request `i` has
offset `offset + 1000 * i` modulo `2 ^ 32`. -/
theorem walkRequests_full (ps : List (List ResourceInfoResponse))
    (hfull : ∀ p ∈ ps, p.length = 1000) :
    ∀ offset, offset < 4294967296 →
      walkRequests offset ps = (List.range (ps.length + 1)).map
        (fun i => { limit := 1000, offset := (offset + 1000 * i) % 4294967296 }) := by
  have h232 : (2 : Nat) ^ 32 = 4294967296 := by norm_num
  induction ps with
  | nil =>
    intro offset hoff
    simp [walkRequests, List.range_succ, Nat.mod_eq_of_lt hoff]
  | cons p ps ih =>
    intro offset hoff
    have hp : p.length = 1000 := hfull p (by simp)
    have harith : ∀ i, ((offset + 1000) % 4294967296 + 1000 * i) % 4294967296
        = (offset + 1000 * (i + 1)) % 4294967296 := by
      intro i; omega
    rw [walkRequests, hp, h232, ih (fun q hq => hfull q (List.mem_cons_of_mem _ hq)) _
      (Nat.mod_lt _ (by norm_num)), List.length_cons, List.range_succ_eq_map (ps.length + 1)]
    simp only [harith, List.map_cons, List.map_map, Nat.mul_zero, Nat.add_zero,
      Nat.mod_eq_of_lt hoff, Function.comp_def, Nat.succ_eq_add_one]

/-! ## Properties of the directory materialization cache -/

/-- C1 (path decomposition): for a path made of directory segments `segs`
(each non-empty and without `/`) followed by a file name (non-empty, without
`/`), joined by single `/`, optionally after the root marker `disk:/` (and,
without the marker, not starting with `disk:/`), `MkDirFullPathCached` on an
empty cache with a client that answers 201 or 409 returns, and its log of
remote calls is exactly the create-directory calls for `/s1/`, `/s1/s2/`, ...,
`/s1/.../sn/`, root first; with no segment the log is empty. -/
theorem path_decomposition (client : Client) (hgood : AnswersCreatedOrConflict client)
    (segs : List Str) (file : Str) (marked : Bool)
    (hsegs : ∀ e ∈ segs, e ≠ [] ∧ '/' ∉ e) (hfile : file ≠ [] ∧ '/' ∉ file)
    (hmark : marked = false → ¬ diskMarker <+: ['/'].intercalate (segs ++ [file])) :
    ∃ s1, MkDirFullPathCached client
        ((if marked then diskMarker else []) ++ ['/'].intercalate (segs ++ [file]))
        { mkdircache := [], calls := [] } = Except.ok s1 ∧
      s1.calls = (List.range segs.length).map
        (fun i => Call.mkdir ('/' :: ((segs.take (i + 1)).map (fun e => e ++ ['/'])).flatten)) := by
  obtain ⟨s1, h1, h2, _⟩ := mkdirLoop_fresh client hgood (segs ++ [[]]) ['/']
    { mkdircache := [], calls := [] } (fun k hk => absurd hk mkdirExist_ne_zero)
  refine ⟨s1, ?_, ?_⟩
  · unfold MkDirFullPathCached
    rw [pathDirs_wellformed segs file marked hsegs hfile hmark]
    exact h1
  · rw [h2, dirChain_append_empty, dirChain_eq_range segs (fun e he => (hsegs e he).1)]
    simp [Function.comp_def]

/-- Witness of C1: `a/b/c/file.txt` gives calls for `/a/`, `/a/b/`, `/a/b/c/`. -/
theorem path_decomposition_witness :
    ∃ s1, MkDirFullPathCached
        createdClient
        ((if false then diskMarker else []) ++
          ['/'].intercalate ([['a'], ['b'], ['c']] ++ [['f', 'i', 'l', 'e', '.', 't', 'x', 't']]))
        { mkdircache := [], calls := [] } = Except.ok s1 ∧
      s1.calls = (List.range [['a'], ['b'], ['c']].length).map
        (fun i => Call.mkdir
          ('/' :: (([['a'], ['b'], ['c']].take (i + 1)).map (fun e => e ++ ['/'])).flatten)) :=
  path_decomposition
    createdClient
    (fun _ _ => Or.inl ⟨rfl, rfl⟩)
    [['a'], ['b'], ['c']] ['f', 'i', 'l', 'e', '.', 't', 'x', 't'] false
    (by decide) (by decide) (by decide)

/-- C2 (at-most-once materialization): for every sequence of
`MkDirFullPathCached` calls that thread one cache starting empty, with a
client that answers 201 or 409, the sequence returns and no directory path
was passed to the client twice; calling again with a path of the sequence
returns the same state (no call, cache unchanged); and from any state, a
second call with the same path changes nothing. -/
theorem materialization_at_most_once (client : Client)
    (hgood : AnswersCreatedOrConflict client) (paths : List Str) :
    (∃ s1, runPaths client paths { mkdircache := [], calls := [] } = Except.ok s1 ∧
      (mkdirPaths s1.calls).Nodup ∧
      ∀ p ∈ paths, MkDirFullPathCached client p s1 = Except.ok s1) ∧
    (∀ (s : Run) (path : Str), ∃ s1, MkDirFullPathCached client path s = Except.ok s1 ∧
      MkDirFullPathCached client path s1 = Except.ok s1) := by
  constructor
  · obtain ⟨s1, h1, h2, _, h4⟩ := runPaths_good client hgood paths { mkdircache := [], calls := [] }
    refine ⟨s1, h1, ?_, ?_⟩
    · exact (h2 ⟨by simp [mkdirPaths], by simp [mkdirPaths]⟩).1
    · intro p hp
      exact mkdirLoop_idle client (pathDirs p) ['/'] s1 (h4 p hp)
  · intro s path
    obtain ⟨s1, h1, h2, _, _⟩ := mkdirLoop_good client hgood (pathDirs path) ['/'] s
    exact ⟨s1, h1, mkdirLoop_idle client (pathDirs path) ['/'] s1 h2⟩

/-- Witness of C2 for a client that answers 201 to every call and the
sequence `a/b/f`, `a/c/g`, `a/b/f`. -/
theorem materialization_at_most_once_witness :
    (∃ s1, runPaths
        createdClient
        [['a', '/', 'b', '/', 'f'], ['a', '/', 'c', '/', 'g'], ['a', '/', 'b', '/', 'f']]
        { mkdircache := [], calls := [] } = Except.ok s1 ∧
      (mkdirPaths s1.calls).Nodup ∧
      ∀ p ∈ [['a', '/', 'b', '/', 'f'], ['a', '/', 'c', '/', 'g'], ['a', '/', 'b', '/', 'f']],
        MkDirFullPathCached
          createdClient p s1 = Except.ok s1) ∧
    (∀ (s : Run) (path : Str), ∃ s1, MkDirFullPathCached
        createdClient path s = Except.ok s1 ∧
      MkDirFullPathCached
        createdClient path s1 = Except.ok s1) :=
  materialization_at_most_once
    createdClient
    (fun _ _ => Or.inl ⟨rfl, rfl⟩)
    [['a', '/', 'b', '/', 'f'], ['a', '/', 'c', '/', 'g'], ['a', '/', 'b', '/', 'f']]

/-- C4 (conflict as success): if the client answers every create-directory
call with an error of status 409, then for every path and every cache
`MkDirFullPathCached` returns (no fatal error), and in the returned cache
every ancestor directory of the path is bound to `mkdirExist`. -/
theorem conflict_as_success (client : Client) (hconflict : AnswersConflict client)
    (path : Str) (s : Run) :
    ∃ s1, MkDirFullPathCached client path s = Except.ok s1 ∧
      ∀ d ∈ ancestorDirs path, s1.mkdircache.get d = mkdirExist := by
  obtain ⟨s1, h1, h2, _, _⟩ := mkdirLoop_good client
    (fun log p => Or.inr (hconflict log p)) (pathDirs path) ['/'] s
  exact ⟨s1, h1, h2⟩

/-- Witness of C4 for `a/b/c/file.txt` on an empty cache. -/
theorem conflict_as_success_witness :
    ∃ s1, MkDirFullPathCached
        conflictClient
        ['a', '/', 'b', '/', 'c', '/', 'f'] { mkdircache := [], calls := [] } = Except.ok s1 ∧
      ∀ d ∈ ancestorDirs ['a', '/', 'b', '/', 'c', '/', 'f'], s1.mkdircache.get d = mkdirExist :=
  conflict_as_success
    conflictClient
    (fun _ _ => ⟨fun h => Option.noConfusion h, rfl⟩)
    ['a', '/', 'b', '/', 'c', '/', 'f'] { mkdircache := [], calls := [] }

/-- C5 (a fatal error stops materialization and the write): if the log of
`MkDirFullPathCached` shows a create-directory call for `d`, after the calls
for `pre`, that the client answered with an error whose status is not 409,
then that call is the last one (no call for a deeper ancestor), the function
is halted there, `pre` and `d` are ancestor directories of the path, the
cache gained only bindings of paths of `pre`, and the enclosing
`Object.Update` and `Fs.Put` are halted in the same state, whose log holds no
upload call. -/
theorem fatal_error_stops (client : Client) (path : Str) (s : Run)
    (pre : List Str) (d : Str) (post : List Call)
    (hlog : (finalRun (MkDirFullPathCached client path s)).calls
      = s.calls ++ pre.map Call.mkdir ++ Call.mkdir d :: post)
    (hfail : isFailure (client.Mkdir (s.calls ++ pre.map Call.mkdir) d)) :
    post = [] ∧
    MkDirFullPathCached client path s
      = Except.error (finalRun (MkDirFullPathCached client path s)) ∧
    (pre ++ [d]).Sublist (ancestorDirs path) ∧
    (∃ added, (finalRun (MkDirFullPathCached client path s)).mkdircache = added ++ s.mkdircache ∧
      ∀ kv ∈ added, kv.1 ∈ pre ∧ kv.2 = mkdirExist) ∧
    (∀ (o : Object) (data : List Nat) (modTime size : Int),
      o.fs.yd = client → o.remotePath = path → o.fs.mkdircache = s.mkdircache →
      o.Update data modTime size s.calls
        = Except.error (finalRun (MkDirFullPathCached client path s))) ∧
    (∀ (f : Fs) (remote : Str) (data : List Nat) (modTime size : Int),
      f.yd = client → f.disk_root ++ remote = path → f.mkdircache = s.mkdircache →
      f.Put data remote modTime size s.calls
        = Except.error (finalRun (MkDirFullPathCached client path s))) := by
  obtain ⟨h1, h2, h3⟩ := mkdirLoop_failure_stops client (pathDirs path) ['/'] s pre d post hlog hfail
  have hupd : ∀ (o : Object) (data : List Nat) (modTime size : Int),
      o.fs.yd = client → o.remotePath = path → o.fs.mkdircache = s.mkdircache →
      o.Update data modTime size s.calls
        = Except.error (finalRun (MkDirFullPathCached client path s)) := by
    intro o data modTime size hy hp hm
    have hs : ({ mkdircache := o.fs.mkdircache, calls := s.calls } : Run) = s := by
      rw [hm]
    unfold Object.Update
    simp only [hy, hp, hs]
    rw [show MkDirFullPathCached client path s = _ from h2]
    rfl
  refine ⟨h1, h2, ?_, h3, hupd, ?_⟩
  · obtain ⟨issued, _, hsub, htrace, _, _⟩ := mkdirLoop_trace client (pathDirs path) ['/'] s
    have heq : issued = pre ++ [d] := by
      apply map_mkdir_injective
      have h := hlog
      unfold MkDirFullPathCached at h
      rw [htrace, h1] at h
      simpa using h
    rw [← heq]; exact hsub
  · intro f remote data modTime size hy hp hm
    exact hupd _ data modTime size hy hp hm

/-- Witness of C5: the client fails on `/a/b/` while `a/b/c/f` is
materialized on an empty cache; the call for `/a/` precedes the failure. -/
theorem fatal_error_stops_witness :
    (finalRun (MkDirFullPathCached failingClient ['a', '/', 'b', '/', 'c', '/', 'f']
        { mkdircache := [], calls := [] })).calls
      = [Call.mkdir ['/', 'a', '/'], Call.mkdir ['/', 'a', '/', 'b', '/']] ∧
    (finalRun (MkDirFullPathCached failingClient ['a', '/', 'b', '/', 'c', '/', 'f']
        { mkdircache := [], calls := [] })).mkdircache = [(['/', 'a', '/'], mkdirExist)] ∧
    ([] : List Call) = [] ∧
    ∀ (f : Fs) (remote : Str) (data : List Nat) (modTime size : Int),
      f.yd = failingClient → f.disk_root ++ remote = ['a', '/', 'b', '/', 'c', '/', 'f'] →
      f.mkdircache = [] →
      f.Put data remote modTime size []
        = Except.error (finalRun (MkDirFullPathCached failingClient
            ['a', '/', 'b', '/', 'c', '/', 'f'] { mkdircache := [], calls := [] })) :=
  ⟨by decide, by decide,
    (fatal_error_stops failingClient ['a', '/', 'b', '/', 'c', '/', 'f']
      { mkdircache := [], calls := [] } [['/', 'a', '/']] ['/', 'a', '/', 'b', '/'] []
      (by decide) (by decide)).1,
    (fatal_error_stops failingClient ['a', '/', 'b', '/', 'c', '/', 'f']
      { mkdircache := [], calls := [] } [['/', 'a', '/']] ['/', 'a', '/', 'b', '/'] []
      (by decide) (by decide)).2.2.2.2.2⟩

/-- C10 (normalized directory paths): for every input path, every client and
every starting state, whether the call returns or is halted, every path that
`MkDirFullPathCached` passes to the directory client, and so every key it
adds to the cache, starts with `/`, ends with `/`, has length at least 3 and
contains no doubled `//`; each issued path is a proper prefix of the next one
issued. -/
theorem issued_paths_normalized (client : Client) (path : Str) (s : Run) :
    ∃ (issued : List Str) (added : MkdirCache),
      (finalRun (MkDirFullPathCached client path s)).calls = s.calls ++ issued.map Call.mkdir ∧
      (finalRun (MkDirFullPathCached client path s)).mkdircache = added ++ s.mkdircache ∧
      (∀ kv ∈ added, kv.1 ∈ issued) ∧
      (∀ d ∈ issued, d.head? = some '/' ∧ d.getLast? = some '/' ∧ 3 ≤ d.length ∧
        ¬ ['/', '/'] <:+: d) ∧
      issued.Chain' (fun a b => a <+: b ∧ a ≠ b) := by
  obtain ⟨issued, added, h1, h2, h3, h4⟩ := mkdirLoop_trace client (pathDirs path) ['/'] s
  have hroot : Normalized ['/'] := ⟨rfl, rfl, List.chain'_singleton _⟩
  obtain ⟨k1, k2⟩ := dirChain_normalized (pathDirs path)
    (fun e he => Split_no_sep _ '/' e he) ['/'] hroot
  refine ⟨issued, added, h2, h3, fun kv hkv => (h4 kv hkv).1, ?_, ?_⟩
  · intro d hd
    obtain ⟨m1, _, m3⟩ := k1 d (h1.subset hd)
    exact ⟨m1.1, m1.2.1, by simpa using m3, Normalized_no_double d m1⟩
  · exact (List.Pairwise.sublist h1 k2).chain'

/-! ## Properties of the adapter facade -/

/-- A root of one segment has no ancestor directory: the value of `dirs` is
the single empty piece. -/
theorem pathDirs_single (root : Str) (hne : root ≠ []) (hs : '/' ∉ root) :
    pathDirs root = [[]] := by
  have hb : Base root = root := Base_append_file [] root (Or.inl rfl) hne hs
  have ht : TrimSuffix root root = [] := TrimSuffix_append [] root
  unfold pathDirs
  simp only [hb, ht]
  rfl

/-- C3 (evaluation at root `remote`): for an adapter built with root `remote`
and an empty cache, whatever the client, `Mkdir()` returns without any remote
call and leaves the cache empty: the root directory `/remote/` is neither
created nor recorded.  The same holds for every root of one segment, and for
the root `a/b` the only call is the one for `/a/`, not for `/a/b/`. -/
theorem Mkdir_skips_root (client : Client) :
    (∃ f, NewFs (Except.ok client) "remote".toList = Except.ok f ∧
      f.root = "remote".toList ∧ f.disk_root = "disk:/remote/".toList ∧ f.mkdircache = [] ∧
      ∃ f1, f.Mkdir [] = Except.ok (f1, [], none) ∧ f1.mkdircache = [] ∧
        f1.mkdircache.get "/remote/".toList ≠ mkdirExist) ∧
    (∀ (f : Fs) (calls : List Call), f.root ≠ [] → '/' ∉ f.root →
      f.Mkdir calls = Except.ok (f, calls, none)) ∧
    (∃ f, NewFs (Except.ok createdClient) "a/b".toList = Except.ok f ∧
      f.root = "a/b".toList ∧
      ∃ f1, f.Mkdir [] = Except.ok (f1, [Call.mkdir "/a/".toList], none) ∧
        f1.mkdircache.get "/a/b/".toList ≠ mkdirExist) := by
  refine ⟨⟨_, rfl, rfl, rfl, rfl, _, rfl, rfl, mkdirExist_ne_zero⟩, ?_,
    ⟨_, rfl, rfl, _, rfl, by decide⟩⟩
  intro f calls hne hs
  unfold Fs.Mkdir MkDirFullPathCached
  rw [pathDirs_single f.root hne hs, mkdirLoop_skip]
  rfl

/-- C8 (end-to-end put): for an adapter with root `remote`, an empty cache and
a client that answers 201 to every create-directory call, `Put` of
`sub/dir/file.bin` returns; its log is exactly the three create-directory
calls `/remote/`, `/remote/sub/`, `/remote/sub/dir/` followed by one upload
call to `disk:/remote/sub/dir/file.bin` with overwrite set; the returned
object has `Remote() = sub/dir/file.bin` and is paired with the error of that
upload. -/
theorem put_end_to_end (client : Client) (hcreated : AnswersCreated client)
    (data : List Nat) (modTime size : Int) :
    ∃ f, NewFs (Except.ok client) "remote".toList = Except.ok f ∧ f.mkdircache = [] ∧
      ∃ o calls err,
        f.Put data "sub/dir/file.bin".toList modTime size [] = Except.ok (o, calls, err) ∧
        calls =
          [Call.mkdir "/remote/".toList, Call.mkdir "/remote/sub/".toList,
           Call.mkdir "/remote/sub/dir/".toList,
           Call.upload data "disk:/remote/sub/dir/file.bin".toList true] ∧
        err = client.Upload
          [Call.mkdir "/remote/".toList, Call.mkdir "/remote/sub/".toList,
           Call.mkdir "/remote/sub/dir/".toList]
          data "disk:/remote/sub/dir/file.bin".toList true ∧
        o.Remote = "sub/dir/file.bin".toList ∧
        o.remotePath = "disk:/remote/sub/dir/file.bin".toList ∧
        o.Fs.yd = client ∧
        ∀ d ∈ ["/remote/".toList, "/remote/sub/".toList, "/remote/sub/dir/".toList],
          o.Fs.mkdircache.get d = mkdirExist := by
  have hgood : AnswersCreatedOrConflict client := fun log p => Or.inl (hcreated log p)
  obtain ⟨s1, h1, h2, h3⟩ := mkdirLoop_fresh client hgood
    ["remote".toList, "sub".toList, "dir".toList, []] ['/']
    { mkdircache := [], calls := [] } (fun k hk => absurd hk mkdirExist_ne_zero)
  have hdirs : pathDirs "disk:/remote/sub/dir/file.bin".toList
      = ["remote".toList, "sub".toList, "dir".toList, []] := by decide
  have hchain : dirChain ["remote".toList, "sub".toList, "dir".toList, []] ['/']
      = ["/remote/".toList, "/remote/sub/".toList, "/remote/sub/dir/".toList] := by decide
  rw [hchain] at h2 h3
  have hfull : MkDirFullPathCached client "disk:/remote/sub/dir/file.bin".toList
      { mkdircache := [], calls := [] } = Except.ok s1 := by
    unfold MkDirFullPathCached; rw [hdirs]; exact h1
  have hput := Put_ok
    { name := [], yd := client, root := "remote".toList, disk_root := "disk:/remote/".toList,
      mkdircache := [] }
    data "sub/dir/file.bin".toList modTime size [] s1 hfull
  refine ⟨_, rfl, rfl, _, _, _, hput, ?_, ?_, rfl, rfl, rfl, ?_⟩
  · rw [h2]; rfl
  · rw [h2]; rfl
  · intro d hd
    show s1.mkdircache.get d = mkdirExist
    rw [h3]
    simp only [List.mem_cons, List.mem_singleton, List.not_mem_nil, or_false] at hd
    rcases hd with hd | hd | hd <;> subst hd <;> decide

/-- Witness of C8 for the client that answers 201 to every call. -/
theorem put_end_to_end_witness :
    ∃ f, NewFs (Except.ok createdClient) "remote".toList = Except.ok f ∧ f.mkdircache = [] ∧
      ∃ o calls err,
        f.Put [1, 2, 3] "sub/dir/file.bin".toList 0 3 [] = Except.ok (o, calls, err) ∧
        calls =
          [Call.mkdir "/remote/".toList, Call.mkdir "/remote/sub/".toList,
           Call.mkdir "/remote/sub/dir/".toList,
           Call.upload [1, 2, 3] "disk:/remote/sub/dir/file.bin".toList true] ∧
        err = createdClient.Upload
          [Call.mkdir "/remote/".toList, Call.mkdir "/remote/sub/".toList,
           Call.mkdir "/remote/sub/dir/".toList]
          [1, 2, 3] "disk:/remote/sub/dir/file.bin".toList true ∧
        o.Remote = "sub/dir/file.bin".toList ∧
        o.remotePath = "disk:/remote/sub/dir/file.bin".toList ∧
        o.Fs.yd = createdClient ∧
        ∀ d ∈ ["/remote/".toList, "/remote/sub/".toList, "/remote/sub/dir/".toList],
          o.Fs.mkdircache.get d = mkdirExist :=
  put_end_to_end createdClient (fun _ _ => ⟨rfl, rfl⟩) [1, 2, 3] 0 3

/-- C9 (evaluation): for every adapter and every remote path, `NewFsObject`
does not return an object: the composite literal dereferences the `nil`
metadata pointer. -/
theorem NewFsObject_panics (parseTime : Str → Option Int) (f : Fs) (remote : Str) :
    f.NewFsObject parseTime remote = Except.error Panic.nilDereference := rfl

/-! ## Properties of the listing walker -/

/-- C6 (prefix filtering): for every adapter (every root) and every finite
sequence of listing pages as a walk receives it, that is pages `ps` that do
not end the walk followed by an answer `final` that does (a short page or an
error), served by the listing source to the requests of the walk: `Fs.list`
makes `ps.length + 1` page requests and returns, it receives exactly those
pages, and the `(name, item)` pairs handed to the callback are exactly, in
page order and in item order within a page, the items of the pages whose
`Path` has `disk_root` as a literal prefix, each paired with its `Path` minus
`disk_root`; so `disk_root ++ name = item.Path` for every pair, and an item
whose `Path` does not start with `disk_root` is in no pair.  More fuel gives
the same run, and for every bound on the number of requests the pairs handed
over so far are the filtered items of the pages received so far. -/
theorem list_filters_by_root (f : Fs) (directories : Bool)
    (ps : List (List ResourceInfoResponse)) (final : Except Str (List ResourceInfoResponse))
    (hps : ∀ p ∈ ps, ¬ p.length % 2 ^ 32 < 1000)
    (hfinal : ∀ last, final = Except.ok last → last.length % 2 ^ 32 < 1000)
    (hsrc : SourceServes f.yd [] 0 ps final) :
    (f.list directories (ps.length + 1)).returned = true ∧
    (f.list directories (ps.length + 1)).requests = walkRequests 0 ps ∧
    (f.list directories (ps.length + 1)).pages = ps ++ okPages final ∧
    (f.list directories (ps.length + 1)).errors = loggedErrors final ∧
    (f.list directories (ps.length + 1)).yields
      = (ps ++ okPages final).flatten.filterMap (relativeEntry f.disk_root) ∧
    (∀ y ∈ (f.list directories (ps.length + 1)).yields,
      f.disk_root ++ y.1 = y.2.Path ∧ y.2 ∈ (ps ++ okPages final).flatten) ∧
    (∀ item ∈ (ps ++ okPages final).flatten, ¬ f.disk_root <+: item.Path →
      ∀ name, (name, item) ∉ (f.list directories (ps.length + 1)).yields) ∧
    (∀ n, f.list directories (ps.length + 1 + n) = f.list directories (ps.length + 1)) ∧
    (∀ fuel, Served f.yd [] (f.list directories fuel).requests (f.list directories fuel).pages ∧
      (f.list directories fuel).yields
        = (f.list directories fuel).pages.flatten.filterMap (relativeEntry f.disk_root)) := by
  have hrun : f.list directories (ps.length + 1) =
      { requests := walkRequests 0 ps,
        pages := ps ++ okPages final,
        yields := (ps ++ okPages final).flatten.filterMap (relativeEntry f.disk_root),
        errors := loggedErrors final,
        returned := true } := by
    have h := listLoop_walk f ps final hfinal 0
      { requests := [], pages := [], yields := [], errors := [], returned := false } hps hsrc
    simp only [List.nil_append] at h
    exact h
  have hmem : ∀ y ∈ (ps ++ okPages final).flatten.filterMap (relativeEntry f.disk_root),
      f.disk_root <+: y.2.Path ∧ f.disk_root ++ y.1 = y.2.Path ∧
        y.2 ∈ (ps ++ okPages final).flatten := by
    intro y hy
    rw [List.mem_filterMap] at hy
    obtain ⟨item, hitem, hrel⟩ := hy
    obtain ⟨k1, k2, k3⟩ := relativeEntry_some f.disk_root item y hrel
    rw [k3]
    exact ⟨k1, k2, hitem⟩
  have hret : (f.list directories (ps.length + 1)).returned = true := by rw [hrun]
  refine ⟨hret, by rw [hrun], by rw [hrun], by rw [hrun], by rw [hrun], ?_, ?_, ?_, ?_⟩
  · intro y hy
    rw [hrun] at hy
    exact (hmem y hy).2
  · intro item _ hno name hin
    rw [hrun] at hin
    exact hno (hmem (name, item) hin).1
  · intro n
    exact listLoop_stable f 1000 (ps.length + 1) 0 _ n rfl hret
  · intro fuel
    exact listLoop_invariant f 1000 fuel 0
      { requests := [], pages := [], yields := [], errors := [], returned := false }
      rfl rfl rfl

/-- Witness of C6: a source that answers by position with one page of 1000
items under the root and then a page holding one item under the root and one
outside it. -/
theorem list_filters_by_root_witness :
    ((remoteFs (servePages [List.replicate 1000 sampleItem, [sampleItem, outsideItem]])).list
        false 2).returned = true ∧
    ((remoteFs (servePages [List.replicate 1000 sampleItem, [sampleItem, outsideItem]])).list
        false 2).pages = [List.replicate 1000 sampleItem, [sampleItem, outsideItem]] ∧
    ((remoteFs (servePages [List.replicate 1000 sampleItem, [sampleItem, outsideItem]])).list
        false 2).yields
      = ([List.replicate 1000 sampleItem, [sampleItem, outsideItem]]).flatten.filterMap
          (relativeEntry "disk:/remote/".toList) :=
  have h := list_filters_by_root
    (remoteFs (servePages [List.replicate 1000 sampleItem, [sampleItem, outsideItem]])) false
    [List.replicate 1000 sampleItem] (Except.ok [sampleItem, outsideItem])
    (by
      intro p hp
      rw [List.mem_singleton] at hp
      rw [hp, List.length_replicate]
      norm_num)
    (by
      intro last hlast
      injection hlast with hlast
      rw [← hlast]
      norm_num)
    ⟨rfl, rfl⟩
  ⟨h.1, h.2.2.1, h.2.2.2.2.1⟩

/-- C7 (pagination termination, offsets as the code computes them): for a
listing source that answers the requests of the walk with `k` pages `ps` of
exactly 1000 items each and then with a page `last` of fewer than 1000 items,
`Fs.list` makes exactly `k + 1` page requests and returns, without logging an
error, and more fuel gives the same run; it receives exactly the pages
`ps ++ [last]`, which are the answers of the source; request `i` is made with
limit 1000 and with offset equal to the number of items received in the
earlier pages modulo `2 ^ 32`, which is that number itself whenever
`1000 * k < 2 ^ 32`; and when every item is under the root the callback is
invoked as many times as the pages hold items. -/
theorem list_pagination (f : Fs) (directories : Bool)
    (ps : List (List ResourceInfoResponse)) (last : List ResourceInfoResponse)
    (hfull : ∀ p ∈ ps, p.length = 1000) (hshort : last.length < 1000)
    (hsrc : SourceServes f.yd [] 0 ps (Except.ok last)) :
    (f.list directories (ps.length + 1)).returned = true ∧
    (f.list directories (ps.length + 1)).errors = [] ∧
    (f.list directories (ps.length + 1)).requests.length = ps.length + 1 ∧
    (f.list directories (ps.length + 1)).pages = ps ++ [last] ∧
    (∀ n, f.list directories (ps.length + 1 + n) = f.list directories (ps.length + 1)) ∧
    Served f.yd [] (f.list directories (ps.length + 1)).requests
      (f.list directories (ps.length + 1)).pages ∧
    (∀ i, i ≤ ps.length → (f.list directories (ps.length + 1)).requests[i]? = some
      { limit := 1000,
        offset := (((f.list directories (ps.length + 1)).pages.take i).map
          List.length).sum % 2 ^ 32 }) ∧
    (1000 * ps.length < 2 ^ 32 → ∀ i, i ≤ ps.length →
      (f.list directories (ps.length + 1)).requests[i]? = some
        { limit := 1000,
          offset := (((f.list directories (ps.length + 1)).pages.take i).map
            List.length).sum }) ∧
    ((∀ item ∈ (f.list directories (ps.length + 1)).pages.flatten,
        f.disk_root <+: item.Path) →
      (f.list directories (ps.length + 1)).yields.length
        = ((f.list directories (ps.length + 1)).pages.map List.length).sum) := by
  have h232 : (2 : Nat) ^ 32 = 4294967296 := by norm_num
  have hps : ∀ p ∈ ps, ¬ p.length % 2 ^ 32 < 1000 := by
    intro p hp; rw [hfull p hp]; norm_num
  have hfinal : ∀ l, (Except.ok last : Except Str (List ResourceInfoResponse)) = Except.ok l →
      l.length % 2 ^ 32 < 1000 := by
    intro l hl
    injection hl with hl
    rw [← hl, h232]; omega
  have hrun : f.list directories (ps.length + 1) =
      { requests := walkRequests 0 ps,
        pages := ps ++ [last],
        yields := (ps ++ [last]).flatten.filterMap (relativeEntry f.disk_root),
        errors := [],
        returned := true } := by
    have h := listLoop_walk f ps (Except.ok last) hfinal 0
      { requests := [], pages := [], yields := [], errors := [], returned := false } hps hsrc
    simp only [List.nil_append, okPages, loggedErrors] at h
    exact h
  have hret : (f.list directories (ps.length + 1)).returned = true := by rw [hrun]
  have hreq : ∀ i, i ≤ ps.length → (walkRequests 0 ps)[i]?
      = some { limit := 1000, offset := (1000 * i) % 4294967296 } := by
    intro i hi
    rw [walkRequests_full ps hfull 0 (by norm_num), List.getElem?_map,
      List.getElem?_range (by omega)]
    simp
  have hsum : ∀ i, i ≤ ps.length → (((ps ++ [last]).take i).map List.length).sum = 1000 * i := by
    intro i hi
    rw [List.take_append_of_le_length hi, sum_length_of_const (ps.take i) 1000
      (fun p hp => hfull p (List.mem_of_mem_take hp)), List.length_take]
    congr 1; omega
  refine ⟨hret, by rw [hrun], ?_, by rw [hrun], ?_, ?_, ?_, ?_, ?_⟩
  · rw [hrun, walkRequests_full ps hfull 0 (by norm_num)]; simp
  · intro n
    exact listLoop_stable f 1000 (ps.length + 1) 0 _ n rfl hret
  · exact (listLoop_invariant f 1000 (ps.length + 1) 0
      { requests := [], pages := [], yields := [], errors := [], returned := false }
      rfl rfl rfl).1
  · intro i hi
    rw [hrun]
    show (walkRequests 0 ps)[i]? = some
      { limit := 1000, offset := (((ps ++ [last]).take i).map List.length).sum % 2 ^ 32 }
    rw [hreq i hi, hsum i hi, h232]
  · intro hk i hi
    rw [hrun]
    show (walkRequests 0 ps)[i]? = some
      { limit := 1000, offset := (((ps ++ [last]).take i).map List.length).sum }
    rw [h232] at hk
    rw [hreq i hi, hsum i hi, Nat.mod_eq_of_lt (by omega)]
  · rw [hrun]
    intro hall
    show ((ps ++ [last]).flatten.filterMap (relativeEntry f.disk_root)).length
      = ((ps ++ [last]).map List.length).sum
    rw [← List.length_flatten]
    have hmap : (ps ++ [last]).flatten.filterMap (relativeEntry f.disk_root)
        = (ps ++ [last]).flatten.map
            (fun item => (item.Path.drop f.disk_root.length, item)) := by
      rw [← List.filterMap_eq_map]
      apply List.filterMap_congr
      intro item hitem
      simp [relativeEntry, hall item hitem]
    rw [hmap, List.length_map]

/-- Witness of C7: a source that answers by request alone over 1500 items
under the root: one page of 1000 items at offset 0, then 500 items at offset
1000; two requests, and 1500 calls of the callback. -/
theorem list_pagination_witness :
    ((remoteFs (offsetClient (List.replicate 1500 sampleItem))).list false 2).returned = true ∧
    ((remoteFs (offsetClient (List.replicate 1500 sampleItem))).list false 2).requests.length
      = 2 ∧
    ((remoteFs (offsetClient (List.replicate 1500 sampleItem))).list false 2).requests[0]?
      = some { limit := 1000, offset := 0 } ∧
    ((remoteFs (offsetClient (List.replicate 1500 sampleItem))).list false 2).requests[1]?
      = some { limit := 1000, offset := 1000 } ∧
    ((remoteFs (offsetClient (List.replicate 1500 sampleItem))).list false 2).pages
      = [List.replicate 1000 sampleItem, List.replicate 500 sampleItem] ∧
    ((remoteFs (offsetClient (List.replicate 1500 sampleItem))).list false 2).yields.length
      = 1500 := by
  have h := list_pagination (remoteFs (offsetClient (List.replicate 1500 sampleItem))) false
    [List.replicate 1000 sampleItem] (List.replicate 500 sampleItem)
    (by
      intro p hp
      rw [List.mem_singleton] at hp
      rw [hp, List.length_replicate])
    (by rw [List.length_replicate]; norm_num)
    (by
      refine ⟨?_, ?_⟩
      · show Except.ok (((List.replicate 1500 sampleItem).drop 0).take 1000) = _
        rw [List.drop_zero, List.take_replicate]
        rfl
      · show Except.ok (((List.replicate 1500 sampleItem).drop
            ((0 + (List.replicate 1000 sampleItem).length % 2 ^ 32) % 2 ^ 32)).take 1000) = _
        rw [List.length_replicate, List.drop_replicate, List.take_replicate]
        rfl)
  simp only [List.length_cons, List.length_nil, Nat.zero_add, Nat.reduceAdd] at h
  obtain ⟨h1, _, h3, h4, _, _, _, h8, h9⟩ := h
  have h4b : ((remoteFs (offsetClient (List.replicate 1500 sampleItem))).list false 2).pages
      = [List.replicate 1000 sampleItem, List.replicate 500 sampleItem] := h4
  have e0 := h8 (by norm_num) 0 (by norm_num)
  have e1 := h8 (by norm_num) 1 (by norm_num)
  rw [h4b] at e0 e1 h9
  simp only [List.take_zero, List.take_succ_cons, List.map_cons, List.map_nil, List.sum_cons,
    List.sum_nil, List.length_replicate, Nat.add_zero] at e0 e1 h9
  refine ⟨h1, h3, e0, e1, h4b, ?_⟩
  apply h9
  intro item hitem
  simp only [List.mem_flatten, List.mem_cons, List.mem_singleton, List.not_mem_nil,
    or_false] at hitem
  obtain ⟨l, hl, hitem⟩ := hitem
  have hitem2 : item = sampleItem := by
    rcases hl with hl | hl <;> (rw [hl] at hitem; exact List.eq_of_mem_replicate hitem)
  rw [hitem2]
  decide

/-- C7 as stated fails: with 4294968 full pages followed by an empty page,
the last request is made with offset 704, while 4294968000 items were
received in the earlier pages. -/
theorem list_offset_wraps :
    (∀ (log : List ListRequest) (req : ListRequest), log.length < 4294968 →
      ∃ items, (pagedFs 4294968).yd.FlatFileList log req = Except.ok items ∧
        items.length = 1000) ∧
    (∀ (log : List ListRequest) (req : ListRequest), log.length = 4294968 →
      ∃ items, (pagedFs 4294968).yd.FlatFileList log req = Except.ok items ∧
        items.length < 1000) ∧
    ((pagedFs 4294968).list false (4294968 + 1)).requests[4294968]?
      = some { limit := 1000, offset := 704 } ∧
    ((((pagedFs 4294968).list false (4294968 + 1)).pages.take 4294968).map List.length).sum
      = 4294968000 ∧
    ((pagedFs 4294968).list false (4294968 + 1)).requests[4294968]? ≠ some
      { limit := 1000,
        offset := ((((pagedFs 4294968).list false (4294968 + 1)).pages.take 4294968).map
          List.length).sum } := by
  obtain ⟨_, _, _, _, h5, h6⟩ := list_full_pages (pagedFs 4294968) false 4294968
    (pagedFs_full 4294968) (pagedFs_short 4294968)
  have e5 := h5 4294968 (Nat.le_refl _)
  have e6 := h6 4294968 (Nat.le_refl _)
  have hmod : 1000 * 4294968 % 4294967296 = 704 := by norm_num
  have hmul : 1000 * 4294968 = 4294968000 := by norm_num
  rw [hmod] at e5
  rw [hmul] at e6
  refine ⟨pagedFs_full 4294968, pagedFs_short 4294968, e5, e6, ?_⟩
  rw [e5, e6]
  intro h
  injection h with h
  injection h with _ h
  exact absurd h (by norm_num)

end Yandex
